import Mathlib

/-!
# BlindMarkerMaster — formal model of the watermark core

Shallow embedding of the watermark subsystem of the BlindMarkerMaster
repository (Rust, `src-tauri/src/core/watermark/` and
`src-tauri/src/models/error.rs`) together with proofs of the spec claims.

Modelling conventions:
* Rust `u8`/`u16` values are `Nat` with explicit `% 256` / `% 65536`
  wherever the source can overflow.
* Rust `f64` arithmetic is idealised as exact arithmetic in a linear
  ordered field (instantiated at `ℚ` by concrete witnesses); irrational
  constants (`sqrt 2`) and the numeric DCT/SVD kernel are carried as
  explicit parameters, since no claim below depends on their values.
* Rust `String`/`&str` values are `List Char` (Rust `char` and Lean
  `Char` are both Unicode scalar values); byte views (`s.as_bytes()`,
  `s.bytes()`) go through an explicit UTF-8 encoder `utf8Bytes`.
* Fallible Rust code returns `Except` / `Option`; a Rust panic reachable
  in the modelled fragment is a distinguished error value, documented at
  its definition.
-/

set_option maxRecDepth 8000

namespace BlindMark

/-! ## Bytes, bits and hex (json_marker.rs / encoder.rs helpers) -/

/-- One byte, MSB first, as eight 0/1 naturals.  Mirrors the Rust pattern
`for i in (0..8).rev() { bits.push((b >> i) & 1); }`. -/
def byteToBits (b : ℕ) : List ℕ :=
  (List.range 8).map (fun i => b / 2 ^ (7 - i) % 2)

/-- A `u16`, MSB first, as sixteen 0/1 naturals (big-endian bit order),
mirroring `for i in (0..16).rev() { bits.push(((len >> i) & 1) as u8); }`. -/
def u16ToBits (v : ℕ) : List ℕ :=
  (List.range 16).map (fun i => v / 2 ^ (15 - i) % 2)

/-- `bytes_to_hex` (json_marker.rs:35): each byte becomes two lowercase hex
characters, high nibble first (`format!("{:02x}", b)`). -/
def hexDigitChar (d : ℕ) : Char :=
  if d < 10 then Char.ofNat (48 + d) else Char.ofNat (87 + d)

def bytes_to_hex (bytes : List ℕ) : List Char :=
  bytes.flatMap (fun b => [hexDigitChar (b / 16 % 16), hexDigitChar (b % 16)])

/-- value of an ASCII hex character, `u8::from_str_radix(_, 16)` on one digit -/
def hexCharVal (c : Char) : Option ℕ :=
  if 48 ≤ c.toNat ∧ c.toNat ≤ 57 then some (c.toNat - 48)
  else if 97 ≤ c.toNat ∧ c.toNat ≤ 102 then some (c.toNat - 87)
  else if 65 ≤ c.toNat ∧ c.toNat ≤ 70 then some (c.toNat - 55)
  else none

/-! ## QIM modulator (dct.rs:325–342)

`qim_encode` and `qim_decode_soft` act on `f64` singular values; every
`f64` value is a rational number and the two functions use only field
operations and `floor`, so they are modelled verbatim over `ℚ`. -/

/-- `qim_encode` (dct.rs:328): `(s / d).floor() * d + (0.25 + 0.5 * bit) * d`. -/
def qim_encode (s : ℚ) (bit : ℕ) (d : ℚ) : ℚ :=
  ⌊s / d⌋ * d + (1/4 + 1/2 * (bit : ℚ)) * d

/-- `qim_decode_soft` (dct.rs:335–342): returns `0.5` when `d ≤ 0`, else
`1.0` when the remainder `s - (s/d).floor()*d` exceeds `d/2`, else `0.0`. -/
def qim_decode_soft (s : ℚ) (d : ℚ) : ℚ :=
  if d ≤ 0 then 1/2
  else
    let remainder := s - ⌊s / d⌋ * d
    if remainder > d / 2 then 1 else 0

/-- QIM steps `D1 = 36.0`, `D2 = 20.0` (dct.rs:10–11). -/
def D1 : ℚ := 36
def D2 : ℚ := 20

end BlindMark

namespace BlindMark

theorem qim_floor_encode (s : ℚ) (bit : ℕ) (d : ℚ) (hd : 0 < d) (hb : bit ≤ 1) :
    ⌊qim_encode s bit d / d⌋ = ⌊s / d⌋ := by
  have hd0 : d ≠ 0 := ne_of_gt hd
  have : qim_encode s bit d / d = (⌊s / d⌋ : ℚ) + (1/4 + 1/2 * (bit : ℚ)) := by
    unfold qim_encode
    field_simp
    ring
  rw [this, Int.floor_int_add]
  interval_cases bit <;> norm_num

/-- C3: For any singular value `s ≥ 0`, any bit `b ∈ {0,1}` and any
quantization step `d > 0`, soft-decoding the QIM-encoded value recovers the
bit exactly: `qim_decode_soft (qim_encode s b d) d = b`. -/
theorem qim_soft_decode_encode (s : ℚ) (bit : ℕ) (d : ℚ)
    (hs : 0 ≤ s) (hb : bit = 0 ∨ bit = 1) (hd : 0 < d) :
    qim_decode_soft (qim_encode s bit d) d = (bit : ℚ) := by
  have hb1 : bit ≤ 1 := by rcases hb with h | h <;> simp [h]
  have hfl := qim_floor_encode s bit d hd hb1
  have hd' : ¬ d ≤ 0 := not_le.mpr hd
  unfold qim_decode_soft
  rw [if_neg hd', hfl]
  have hrem : qim_encode s bit d - ⌊s / d⌋ * d = (1/4 + 1/2 * (bit : ℚ)) * d := by
    unfold qim_encode; ring
  rw [hrem]
  rcases hb with h | h <;> subst h
  · rw [if_neg (by push_cast; nlinarith)]
    norm_num
  · rw [if_pos (by push_cast; nlinarith)]
    norm_num

/-- Witness for C3 at `s = 129`, `bit = 1`, `d = D1 = 36`. -/
theorem qim_soft_decode_encode_witness :
    (0 : ℚ) ≤ 129 ∧ ((1 : ℕ) = 0 ∨ (1 : ℕ) = 1) ∧ (0 : ℚ) < D1 ∧
      qim_decode_soft (qim_encode 129 1 D1) D1 = ((1 : ℕ) : ℚ) :=
  ⟨by norm_num, Or.inr rfl, by norm_num [D1],
    qim_soft_decode_encode 129 1 D1 (by norm_num) (Or.inr rfl) (by norm_num [D1])⟩

/-! ## UTF-8

Rust strings are UTF-8; `text.as_bytes()` / `String::from_utf8` are modelled
by an explicit UTF-8 encoder and (validating) decoder on `List Char` /
`List ℕ`.  A Rust `char` and a Lean `Char` are both Unicode scalar values. -/

/-- UTF-8 encoding of one Unicode scalar value. -/
def utf8EncodeChar (c : Char) : List ℕ :=
  if c.toNat < 0x80 then [c.toNat]
  else if c.toNat < 0x800 then [0xC0 + c.toNat / 64, 0x80 + c.toNat % 64]
  else if c.toNat < 0x10000 then
    [0xE0 + c.toNat / 4096, 0x80 + c.toNat / 64 % 64, 0x80 + c.toNat % 64]
  else
    [0xF0 + c.toNat / 262144, 0x80 + c.toNat / 4096 % 64,
     0x80 + c.toNat / 64 % 64, 0x80 + c.toNat % 64]

/-- `s.as_bytes()` / `s.bytes()` for a Rust string modelled as `List Char`. -/
def utf8Bytes (s : List Char) : List ℕ := s.flatMap utf8EncodeChar

/-- One step of UTF-8 decoding: given the lead byte and the remaining
stream, produce the decoded scalar value and the bytes left over.  Rejects
continuation-byte errors, overlong forms, surrogates and values above
`0x10FFFF`, exactly as Rust's `String::from_utf8` does. -/
def utf8DecodeStep (b0 : ℕ) (rest : List ℕ) : Option (ℕ × List ℕ) :=
  if b0 < 0x80 then some (b0, rest)
  else if b0 < 0xC2 then none
  else if b0 < 0xE0 then
    match rest with
    | b1 :: rest2 =>
      if 0x80 ≤ b1 ∧ b1 < 0xC0 then some ((b0 - 0xC0) * 64 + (b1 - 0x80), rest2)
      else none
    | [] => none
  else if b0 < 0xF0 then
    match rest with
    | b1 :: b2 :: rest2 =>
      if (0x80 ≤ b1 ∧ b1 < 0xC0) ∧ (0x80 ≤ b2 ∧ b2 < 0xC0)
          ∧ (b0 ≠ 0xE0 ∨ 0xA0 ≤ b1) ∧ (b0 ≠ 0xED ∨ b1 < 0xA0) then
        some ((b0 - 0xE0) * 4096 + (b1 - 0x80) * 64 + (b2 - 0x80), rest2)
      else none
    | _ => none
  else if b0 < 0xF5 then
    match rest with
    | b1 :: b2 :: b3 :: rest2 =>
      if (0x80 ≤ b1 ∧ b1 < 0xC0) ∧ (0x80 ≤ b2 ∧ b2 < 0xC0) ∧ (0x80 ≤ b3 ∧ b3 < 0xC0)
          ∧ (b0 ≠ 0xF0 ∨ 0x90 ≤ b1) ∧ (b0 ≠ 0xF4 ∨ b1 < 0x90) then
        some ((b0 - 0xF0) * 262144 + (b1 - 0x80) * 4096 + (b2 - 0x80) * 64 + (b3 - 0x80), rest2)
      else none
    | _ => none
  else none

theorem utf8DecodeStep_length {b0 : ℕ} {rest : List ℕ} {n : ℕ} {rest2 : List ℕ}
    (h : utf8DecodeStep b0 rest = some (n, rest2)) : rest2.length ≤ rest.length := by
  unfold utf8DecodeStep at h
  split at h
  · cases h; exact le_refl _
  · split at h
    · cases h
    · split at h
      · split at h
        · split at h
          · cases h; simp only [List.length_cons]; omega
          · cases h
        · cases h
      · split at h
        · split at h
          · split at h
            · cases h; simp only [List.length_cons]; omega
            · cases h
          · cases h
        · split at h
          · split at h
            · split at h
              · cases h; simp only [List.length_cons]; omega
              · cases h
            · cases h
          · cases h

/-- Validating UTF-8 decoder: `String::from_utf8(bytes).ok()` as a whole. -/
def utf8Decode : List ℕ → Option (List Char)
  | [] => some []
  | b0 :: rest =>
    match h : utf8DecodeStep b0 rest with
    | none => none
    | some (n, rest2) =>
      have : rest2.length < (b0 :: rest).length :=
        Nat.lt_succ_of_le (utf8DecodeStep_length h)
      (utf8Decode rest2).map (fun cs => Char.ofNat n :: cs)
  termination_by l => l.length

theorem char_toNat_valid (c : Char) :
    c.toNat < 0xD800 ∨ (0xDFFF < c.toNat ∧ c.toNat < 0x110000) := c.valid

theorem utf8EncodeChar_byte_lt (c : Char) : ∀ b ∈ utf8EncodeChar c, b < 256 := by
  have hval := char_toNat_valid c
  intro b hb
  unfold utf8EncodeChar at hb
  split at hb
  · rename_i h1
    simp only [List.mem_singleton] at hb
    omega
  · rename_i h1
    split at hb
    · rename_i h2
      simp only [List.mem_cons, List.mem_singleton, List.not_mem_nil, or_false] at hb
      rcases hb with h | h <;> omega
    · rename_i h2
      split at hb
      · rename_i h3
        simp only [List.mem_cons, List.mem_singleton, List.not_mem_nil, or_false] at hb
        rcases hb with h | h | h <;> omega
      · rename_i h3
        simp only [List.mem_cons, List.mem_singleton, List.not_mem_nil, or_false] at hb
        rcases hb with h | h | h | h <;> omega

theorem utf8Decode_cons_of_step {b0 : ℕ} {rest : List ℕ} {n : ℕ} {rest2 : List ℕ}
    (h : utf8DecodeStep b0 rest = some (n, rest2)) :
    utf8Decode (b0 :: rest) = (utf8Decode rest2).map (fun cs => Char.ofNat n :: cs) := by
  rw [utf8Decode]
  split
  · rename_i heq; rw [heq] at h; cases h
  · rename_i n' rest2' heq; rw [heq] at h; cases h; rfl

/-- The decoder's first step consumes exactly the encoding of the leading
character. -/
theorem utf8DecodeStep_encodeChar (c : Char) (bs : List ℕ) :
    ∃ b0 rest, utf8EncodeChar c ++ bs = b0 :: rest
      ∧ utf8DecodeStep b0 rest = some (c.toNat, bs) := by
  have hval := char_toNat_valid c
  by_cases h1 : c.toNat < 0x80
  · refine ⟨c.toNat, bs, ?_, ?_⟩
    · rw [show utf8EncodeChar c = [c.toNat] by unfold utf8EncodeChar; rw [if_pos h1]]; rfl
    · unfold utf8DecodeStep; rw [if_pos h1]
  · by_cases h2 : c.toNat < 0x800
    · refine ⟨0xC0 + c.toNat / 64, (0x80 + c.toNat % 64) :: bs, ?_, ?_⟩
      · rw [show utf8EncodeChar c = [0xC0 + c.toNat / 64, 0x80 + c.toNat % 64] by
          unfold utf8EncodeChar; rw [if_neg h1, if_pos h2]]; rfl
      · unfold utf8DecodeStep
        rw [if_neg (by omega), if_neg (by omega), if_pos (by omega)]
        show (if 0x80 ≤ 0x80 + c.toNat % 64 ∧ 0x80 + c.toNat % 64 < 0xC0 then _ else _) = _
        rw [if_pos (by omega)]
        have hv : (0xC0 + c.toNat / 64 - 0xC0) * 64 + (0x80 + c.toNat % 64 - 0x80)
            = c.toNat := by omega
        rw [hv]
    · by_cases h3 : c.toNat < 0x10000
      · refine ⟨0xE0 + c.toNat / 4096,
          (0x80 + c.toNat / 64 % 64) :: (0x80 + c.toNat % 64) :: bs, ?_, ?_⟩
        · rw [show utf8EncodeChar c
              = [0xE0 + c.toNat / 4096, 0x80 + c.toNat / 64 % 64, 0x80 + c.toNat % 64] by
            unfold utf8EncodeChar; rw [if_neg h1, if_neg h2, if_pos h3]]; rfl
        · unfold utf8DecodeStep
          rw [if_neg (by omega), if_neg (by omega), if_neg (by omega), if_pos (by omega)]
          show (if _ ∧ _ ∧ _ ∧ _ then _ else _) = _
          rw [if_pos ⟨⟨by omega, by omega⟩, ⟨by omega, by omega⟩, by omega, by omega⟩]
          have hv : (0xE0 + c.toNat / 4096 - 0xE0) * 4096
              + (0x80 + c.toNat / 64 % 64 - 0x80) * 64 + (0x80 + c.toNat % 64 - 0x80)
              = c.toNat := by omega
          rw [hv]
      · refine ⟨0xF0 + c.toNat / 262144,
          (0x80 + c.toNat / 4096 % 64) :: (0x80 + c.toNat / 64 % 64)
            :: (0x80 + c.toNat % 64) :: bs, ?_, ?_⟩
        · rw [show utf8EncodeChar c
              = [0xF0 + c.toNat / 262144, 0x80 + c.toNat / 4096 % 64,
                 0x80 + c.toNat / 64 % 64, 0x80 + c.toNat % 64] by
            unfold utf8EncodeChar; rw [if_neg h1, if_neg h2, if_neg h3]]; rfl
        · unfold utf8DecodeStep
          rw [if_neg (by omega), if_neg (by omega), if_neg (by omega), if_neg (by omega),
            if_pos (by omega)]
          show (if _ ∧ _ ∧ _ ∧ _ ∧ _ then _ else _) = _
          rw [if_pos ⟨⟨by omega, by omega⟩, ⟨by omega, by omega⟩, ⟨by omega, by omega⟩,
            by omega, by omega⟩]
          have hv : (0xF0 + c.toNat / 262144 - 0xF0) * 262144
              + (0x80 + c.toNat / 4096 % 64 - 0x80) * 4096
              + (0x80 + c.toNat / 64 % 64 - 0x80) * 64 + (0x80 + c.toNat % 64 - 0x80)
              = c.toNat := by omega
          rw [hv]

/-- Decoding undoes encoding for a single character at the head of a byte
stream. -/
theorem utf8Decode_encodeChar_append (c : Char) (bs : List ℕ) :
    utf8Decode (utf8EncodeChar c ++ bs) = (utf8Decode bs).map (fun cs => c :: cs) := by
  obtain ⟨b0, rest, heq, hstep⟩ := utf8DecodeStep_encodeChar c bs
  rw [heq, utf8Decode_cons_of_step hstep, Char.ofNat_toNat]

/-- `String::from_utf8` inverts `as_bytes`: decoding the UTF-8 encoding of any
string yields the string back. -/
theorem utf8Decode_utf8Bytes (s : List Char) : utf8Decode (utf8Bytes s) = some s := by
  induction s with
  | nil => simp [utf8Bytes, utf8Decode]
  | cons c cs ih =>
    show utf8Decode (utf8EncodeChar c ++ utf8Bytes cs) = _
    rw [utf8Decode_encodeChar_append, ih, Option.map_some']

/-! ## Error model (models/error.rs)

`BlindMarkError` carries formatted message strings; the model keeps one
constructor per distinct raising site relevant to the claims, carrying the
data interpolated into that site's message. -/

inductive BMError where
  /-- `ImageProcessing`: odd image dimensions, raised by the embed/extract
  pipelines and the DWT (embedder.rs:135, extractor.rs:93, dwt.rs:118). -/
  | dimensionOdd (width height : ℕ)
  /-- `ExtractionFailed` raised by the capacity check (dct.rs:66/132): the LL
  subband holds `blocks` 4×4 blocks, fewer than the `payload` watermark bits.
  This is the spec's `PayloadTooLarge(N, W)`. -/
  | payloadTooLarge (blocks payload : ℕ)
  /-- `InvalidConfig` for a strength outside `[0.1, 1.0]` (embedder.rs:50/75). -/
  | invalidStrength (strength : ℚ)
  /-- `InvalidConfig` for a raw-text payload over 64 UTF-8 bytes (encoder.rs:91). -/
  | textTooLong (bytes : ℕ)
  /-- `ImageProcessing`: "AES 模式需要提供密钥" (json_marker.rs:163). -/
  | aesKeyMissing
  /-- `ImageProcessing`: any failure inside `aes_decrypt` — bad hex length,
  hex decode failure, data shorter than a nonce, GCM decrypt failure, or
  invalid UTF-8 plaintext (json_marker.rs:40–91). -/
  | aesDecryptFailed
  /-- `ExtractionFailed`: no raw-text watermark found (extractor.rs:73). -/
  | extractionNotFound
  /-- `ImageProcessing`: "DWT 分解失败" (extractor.rs:111). -/
  | dwtFailed
  /-- `ExtractionFailed`: `WatermarkEncoder::decode` on a bit sequence whose
  length is not 128 (encoder.rs:52). -/
  | decodeLengthInvalid (got : ℕ)
  /-- `ExtractionFailed`: `WatermarkEncoder::decode` on a bit value above 1
  (encoder.rs:64). -/
  | decodeBitInvalid
  /-- Model of a Rust panic (not a `BlindMarkError` value).  The only panic
  site in the modelled fragment is the index expression
  `block_idx % wm_bits.len()` of dct.rs:76, a remainder by zero when the
  payload is empty. -/
  | panicked
  deriving DecidableEq

/-! ## Raw-text payload codec (encoder.rs) -/

/-- `TEXT_WATERMARK_MAGIC = [0x57, 0x4D]` (encoder.rs:7). -/
def TEXT_WATERMARK_MAGIC : List ℕ := [0x57, 0x4D]
/-- `TEXT_WATERMARK_HEADER_BITS = 32` (encoder.rs:9). -/
def TEXT_WATERMARK_HEADER_BITS : ℕ := 32
/-- `TEXT_WATERMARK_TOTAL_BITS = 544` (encoder.rs:11). -/
def TEXT_WATERMARK_TOTAL_BITS : ℕ := 544
/-- `TEXT_WATERMARK_MAX_BYTES = 64` (encoder.rs:13). -/
def TEXT_WATERMARK_MAX_BYTES : ℕ := 64

/-- `WatermarkEncoder::text_to_bits` (encoder.rs:88–112): magic bytes, the
byte length as big-endian `u16`, the UTF-8 bytes, then `Vec::resize` zero
padding to 544 bits.  (Under the length guard the resize only ever pads.) -/
def text_to_bits (t : List Char) : Except BMError (List ℕ) :=
  if (utf8Bytes t).length > TEXT_WATERMARK_MAX_BYTES then
    .error (.textTooLong (utf8Bytes t).length)
  else
    .ok ((TEXT_WATERMARK_MAGIC.flatMap byteToBits
          ++ u16ToBits (utf8Bytes t).length ++ (utf8Bytes t).flatMap byteToBits)
      ++ List.replicate
          (TEXT_WATERMARK_TOTAL_BITS
            - (TEXT_WATERMARK_MAGIC.flatMap byteToBits ++ u16ToBits (utf8Bytes t).length
                ++ (utf8Bytes t).flatMap byteToBits).length) 0)

/-- The byte-rebuilding loop of `bits_to_text` (encoder.rs:122–125/139–144):
`*m = (*m << 1) | bits[off + j]` over a `u8` accumulator, eight steps.  All
reads are guarded in range by the caller; `getD _ 0` is that in-range read. -/
def readByteAt (bits : List ℕ) (off : ℕ) : ℕ :=
  (List.range 8).foldl (fun m j => Nat.lor (m * 2 % 256) (bits.getD (off + j) 0)) 0

/-- The length-rebuilding loop of `bits_to_text` (encoder.rs:131):
`len = (len << 1) | (bits[16 + j] as u16)` over a `u16` accumulator. -/
def readLen16 (bits : List ℕ) : ℕ :=
  (List.range 16).foldl (fun l j => Nat.lor (l * 2 % 65536) (bits.getD (16 + j) 0)) 0

/-- `WatermarkEncoder::bits_to_text` (encoder.rs:117–148). -/
def bits_to_text (bits : List ℕ) : Option (List Char) :=
  if bits.length < TEXT_WATERMARK_HEADER_BITS then none
  else if readByteAt bits 0 = 0x57 ∧ readByteAt bits 8 = 0x4D then
    if readLen16 bits ≤ TEXT_WATERMARK_MAX_BYTES then
      if bits.length < TEXT_WATERMARK_HEADER_BITS + readLen16 bits * 8 then none
      else
        utf8Decode ((List.range (readLen16 bits)).map
          (fun i => readByteAt bits (TEXT_WATERMARK_HEADER_BITS + i * 8)))
    else none
  else none

theorem byteToBits_length (b : ℕ) : (byteToBits b).length = 8 := by
  simp [byteToBits]

theorem u16ToBits_length (v : ℕ) : (u16ToBits v).length = 16 := by
  simp [u16ToBits]

theorem flatMap_byteToBits_length (bs : List ℕ) :
    (bs.flatMap byteToBits).length = 8 * bs.length := by
  induction bs with
  | nil => simp
  | cons b t ih => simp [List.flatMap_cons, byteToBits_length, ih]; ring

theorem getD_append_offset (pre l post : List ℕ) (j : ℕ) (h : j < l.length) :
    (pre ++ (l ++ post)).getD (pre.length + j) 0 = l.getD j 0 := by
  rw [List.getD_append_right _ _ _ _ (Nat.le_add_right _ _), Nat.add_sub_cancel_left,
    List.getD_append _ _ _ _ h]

theorem foldl_range_getD_self (f : ℕ → ℕ → ℕ) :
    ∀ (l : List ℕ) (a : ℕ),
      (List.range l.length).foldl (fun m j => f m (l.getD j 0)) a = l.foldl f a := by
  intro l
  induction l with
  | nil => intro a; simp
  | cons x xs ih =>
    intro a
    rw [List.length_cons, List.range_succ_eq_map, List.foldl_cons, List.foldl_map]
    simp only [List.getD_cons_zero, List.getD_cons_succ]
    rw [ih (f a x), List.foldl_cons]

theorem foldl_range_getD_append (f : ℕ → ℕ → ℕ) (pre mid post : List ℕ) (a : ℕ) :
    (List.range mid.length).foldl
        (fun m j => f m ((pre ++ (mid ++ post)).getD (pre.length + j) 0)) a
      = mid.foldl f a := by
  have hext : ∀ acc : ℕ, ∀ j ∈ List.range mid.length,
      f acc ((pre ++ (mid ++ post)).getD (pre.length + j) 0) = f acc (mid.getD j 0) := by
    intro acc j hj
    rw [getD_append_offset pre mid post j (List.mem_range.mp hj)]
  rw [List.foldl_ext _ _ a hext]
  exact foldl_range_getD_self f mid a

theorem byteToBits_foldl (b : ℕ) (hb : b < 256) :
    (byteToBits b).foldl (fun m x => Nat.lor (m * 2 % 256) x) 0 = b := by
  revert b hb
  decide

theorem u16ToBits_foldl_small (v : ℕ) (hv : v < 65) :
    (u16ToBits v).foldl (fun l x => Nat.lor (l * 2 % 65536) x) 0 = v := by
  revert v hv
  decide

theorem foldl_range_getD_append' (f : ℕ → ℕ → ℕ) (pre mid post : List ℕ) (a k off : ℕ)
    (hk : k = mid.length) (hoff : off = pre.length) :
    (List.range k).foldl (fun m j => f m ((pre ++ (mid ++ post)).getD (off + j) 0)) a
      = mid.foldl f a := by
  subst hk; subst hoff; exact foldl_range_getD_append f pre mid post a

/-- Reading a byte back out of the bit stream at the position where it was
written recovers the byte. -/
theorem readByteAt_append (pre post : List ℕ) (b off : ℕ)
    (hoff : off = pre.length) (hb : b < 256) :
    readByteAt (pre ++ (byteToBits b ++ post)) off = b := by
  unfold readByteAt
  rw [foldl_range_getD_append' _ pre (byteToBits b) post 0 8 off
    (byteToBits_length b).symm hoff]
  exact byteToBits_foldl b hb

/-- Reading the big-endian `u16` length field back recovers the length. -/
theorem readLen16_append (pre post : List ℕ) (v : ℕ)
    (hpre : pre.length = 16) (hv : v < 65) :
    readLen16 (pre ++ (u16ToBits v ++ post)) = v := by
  unfold readLen16
  rw [foldl_range_getD_append' _ pre (u16ToBits v) post 0 16 16
    (u16ToBits_length v).symm hpre.symm]
  exact u16ToBits_foldl_small v hv

theorem utf8Bytes_lt_256 (s : List Char) : ∀ b ∈ utf8Bytes s, b < 256 := by
  intro b hb
  rw [utf8Bytes, List.mem_flatMap] at hb
  obtain ⟨c, _, hbc⟩ := hb
  exact utf8EncodeChar_byte_lt c b hbc

/-- Reading the payload bytes back out of the bit stream recovers them. -/
theorem readBytes_map (bytes : List ℕ) (h256 : ∀ b ∈ bytes, b < 256) :
    ∀ pre post : List ℕ,
      (List.range bytes.length).map
          (fun i => readByteAt (pre ++ (bytes.flatMap byteToBits ++ post))
            (pre.length + i * 8))
        = bytes := by
  induction bytes with
  | nil => intro pre post; simp
  | cons b bs ih =>
    intro pre post
    rw [List.length_cons, List.range_succ_eq_map, List.map_cons, List.map_map]
    have hhead : pre.length + 0 * 8 = pre.length := by omega
    congr 1
    · rw [hhead,
        show (b :: bs).flatMap byteToBits ++ post
            = byteToBits b ++ (bs.flatMap byteToBits ++ post) by
          simp [List.flatMap_cons, List.append_assoc]]
      exact readByteAt_append pre _ b _ rfl (h256 b (List.mem_cons_self b bs))
    · refine Eq.trans ?_ (ih (fun x hx => h256 x (List.mem_cons_of_mem b hx))
        (pre ++ byteToBits b) post)
      apply List.map_congr_left
      intro i _
      show readByteAt (pre ++ ((b :: bs).flatMap byteToBits ++ post))
          (pre.length + (i + 1) * 8)
        = readByteAt ((pre ++ byteToBits b) ++ (bs.flatMap byteToBits ++ post))
          ((pre ++ byteToBits b).length + i * 8)
      congr 1
      · simp [List.flatMap_cons, List.append_assoc]
      · simp only [List.length_append, byteToBits_length]
        omega

/-- C4: for every text `t` of at most 64 UTF-8 bytes (including 0 and 64),
`text_to_bits t` succeeds with exactly 544 bits framed as magic bytes
`0x57 0x4D`, the byte length as a big-endian `u16`, the UTF-8 bytes of `t`,
then zero padding, and `bits_to_text (text_to_bits t) = t`; for every text
of 65 or more UTF-8 bytes `text_to_bits` fails with an error. -/
theorem text_to_bits_roundtrip (t : List Char) :
    ((utf8Bytes t).length ≤ 64 →
      ∃ bits, text_to_bits t = .ok bits
        ∧ bits.length = 544
        ∧ bits = byteToBits 0x57 ++ (byteToBits 0x4D
            ++ (u16ToBits (utf8Bytes t).length
              ++ ((utf8Bytes t).flatMap byteToBits
                ++ List.replicate (512 - 8 * (utf8Bytes t).length) 0)))
        ∧ bits_to_text bits = some t)
    ∧ (64 < (utf8Bytes t).length →
      text_to_bits t = .error (.textTooLong (utf8Bytes t).length)) := by
  have hmagic : TEXT_WATERMARK_MAGIC.flatMap byteToBits
      = byteToBits 0x57 ++ byteToBits 0x4D := by
    simp [TEXT_WATERMARK_MAGIC]
  constructor
  · intro hL
    have hcorelen : (TEXT_WATERMARK_MAGIC.flatMap byteToBits
        ++ u16ToBits (utf8Bytes t).length
        ++ (utf8Bytes t).flatMap byteToBits).length = 32 + 8 * (utf8Bytes t).length := by
      simp only [hmagic, List.append_assoc, List.length_append, byteToBits_length,
        u16ToBits_length, flatMap_byteToBits_length]
      omega
    refine ⟨_, ?_, ?_, rfl, ?_⟩
    · unfold text_to_bits TEXT_WATERMARK_MAX_BYTES TEXT_WATERMARK_TOTAL_BITS
      rw [if_neg (by omega)]
      rw [hcorelen, hmagic]
      have hpad : 544 - (32 + 8 * (utf8Bytes t).length)
          = 512 - 8 * (utf8Bytes t).length := by omega
      rw [hpad]
      simp only [List.append_assoc]
    · simp only [List.length_append, byteToBits_length, u16ToBits_length,
        flatMap_byteToBits_length, List.length_replicate]
      omega
    · have h256 := utf8Bytes_lt_256 t
      have hb57 : (0x57 : ℕ) < 256 := by norm_num
      have hb4D : (0x4D : ℕ) < 256 := by norm_num
      unfold bits_to_text TEXT_WATERMARK_HEADER_BITS TEXT_WATERMARK_MAX_BYTES
      rw [if_neg (by
        simp only [List.length_append, byteToBits_length, u16ToBits_length,
          flatMap_byteToBits_length, List.length_replicate]
        omega)]
      have h1 : readByteAt (byteToBits 0x57 ++ (byteToBits 0x4D
          ++ (u16ToBits (utf8Bytes t).length
            ++ ((utf8Bytes t).flatMap byteToBits
              ++ List.replicate (512 - 8 * (utf8Bytes t).length) 0)))) 0 = 0x57 := by
        have := readByteAt_append [] (byteToBits 0x4D
          ++ (u16ToBits (utf8Bytes t).length
            ++ ((utf8Bytes t).flatMap byteToBits
              ++ List.replicate (512 - 8 * (utf8Bytes t).length) 0))) 0x57 0 rfl hb57
        simpa using this
      have h2 : readByteAt (byteToBits 0x57 ++ (byteToBits 0x4D
          ++ (u16ToBits (utf8Bytes t).length
            ++ ((utf8Bytes t).flatMap byteToBits
              ++ List.replicate (512 - 8 * (utf8Bytes t).length) 0)))) 8 = 0x4D :=
        readByteAt_append (byteToBits 0x57) _ 0x4D 8 (byteToBits_length 0x57).symm hb4D
      rw [if_pos ⟨h1, h2⟩]
      have hlen : readLen16 (byteToBits 0x57 ++ (byteToBits 0x4D
          ++ (u16ToBits (utf8Bytes t).length
            ++ ((utf8Bytes t).flatMap byteToBits
              ++ List.replicate (512 - 8 * (utf8Bytes t).length) 0))))
          = (utf8Bytes t).length := by
        rw [show byteToBits 0x57 ++ (byteToBits 0x4D
            ++ (u16ToBits (utf8Bytes t).length
              ++ ((utf8Bytes t).flatMap byteToBits
                ++ List.replicate (512 - 8 * (utf8Bytes t).length) 0)))
          = (byteToBits 0x57 ++ byteToBits 0x4D)
            ++ (u16ToBits (utf8Bytes t).length
              ++ ((utf8Bytes t).flatMap byteToBits
                ++ List.replicate (512 - 8 * (utf8Bytes t).length) 0)) by
          simp [List.append_assoc]]
        exact readLen16_append _ _ _
          (by simp [List.length_append, byteToBits_length]) (by omega)
      rw [hlen, if_pos hL]
      rw [if_neg (by
        simp only [List.length_append, byteToBits_length, u16ToBits_length,
          flatMap_byteToBits_length, List.length_replicate]
        omega)]
      have hmap : (List.range (utf8Bytes t).length).map
          (fun i => readByteAt (byteToBits 0x57 ++ (byteToBits 0x4D
            ++ (u16ToBits (utf8Bytes t).length
              ++ ((utf8Bytes t).flatMap byteToBits
                ++ List.replicate (512 - 8 * (utf8Bytes t).length) 0)))) (32 + i * 8))
          = utf8Bytes t := by
        have hrb := readBytes_map (utf8Bytes t) h256
          ((byteToBits 0x57 ++ byteToBits 0x4D) ++ u16ToBits (utf8Bytes t).length)
          (List.replicate (512 - 8 * (utf8Bytes t).length) 0)
        refine Eq.trans ?_ hrb
        apply List.map_congr_left
        intro i _
        rw [show byteToBits 0x57 ++ (byteToBits 0x4D
              ++ (u16ToBits (utf8Bytes t).length
                ++ ((utf8Bytes t).flatMap byteToBits
                  ++ List.replicate (512 - 8 * (utf8Bytes t).length) 0)))
            = ((byteToBits 0x57 ++ byteToBits 0x4D) ++ u16ToBits (utf8Bytes t).length)
              ++ ((utf8Bytes t).flatMap byteToBits
                ++ List.replicate (512 - 8 * (utf8Bytes t).length) 0) by
          simp [List.append_assoc]]
        rw [show (32 : ℕ) + i * 8
            = ((byteToBits 0x57 ++ byteToBits 0x4D)
                ++ u16ToBits (utf8Bytes t).length).length + i * 8 by
          simp only [List.length_append, byteToBits_length, u16ToBits_length]]
      rw [hmap]
      exact utf8Decode_utf8Bytes t
  · intro hL
    unfold text_to_bits TEXT_WATERMARK_MAX_BYTES
    rw [if_pos (by omega)]

/-! ## MD5 (RFC 1321), the `md5` crate used by `WatermarkEncoder::encode`

`encode` (encoder.rs:25–44) hashes the text and exposes the digest both as
a lowercase 32-character hex string and as a 128-bit MSB-first bit vector.
The hash itself is pure 32-bit arithmetic, modelled over `ℕ` with explicit
`% 2^32`. -/

def not32 (a : ℕ) : ℕ := 4294967295 - a % 4294967296

def rotl32 (x s : ℕ) : ℕ := (x % 2 ^ (32 - s)) * 2 ^ s + x / 2 ^ (32 - s)

/-- The 64 MD5 sine-table constants. -/
def md5K : List ℕ :=
  [0xd76aa478, 0xe8c7b756, 0x242070db, 0xc1bdceee,
   0xf57c0faf, 0x4787c62a, 0xa8304613, 0xfd469501,
   0x698098d8, 0x8b44f7af, 0xffff5bb1, 0x895cd7be,
   0x6b901122, 0xfd987193, 0xa679438e, 0x49b40821,
   0xf61e2562, 0xc040b340, 0x265e5a51, 0xe9b6c7aa,
   0xd62f105d, 0x02441453, 0xd8a1e681, 0xe7d3fbc8,
   0x21e1cde6, 0xc33707d6, 0xf4d50d87, 0x455a14ed,
   0xa9e3e905, 0xfcefa3f8, 0x676f02d9, 0x8d2a4c8a,
   0xfffa3942, 0x8771f681, 0x6d9d6122, 0xfde5380c,
   0xa4beea44, 0x4bdecfa9, 0xf6bb4b60, 0xbebfbc70,
   0x289b7ec6, 0xeaa127fa, 0xd4ef3085, 0x04881d05,
   0xd9d4d039, 0xe6db99e5, 0x1fa27cf8, 0xc4ac5665,
   0xf4292244, 0x432aff97, 0xab9423a7, 0xfc93a039,
   0x655b59c3, 0x8f0ccc92, 0xffeff47d, 0x85845dd1,
   0x6fa87e4f, 0xfe2ce6e0, 0xa3014314, 0x4e0811a1,
   0xf7537e82, 0xbd3af235, 0x2ad7d2bb, 0xeb86d391]

/-- The per-round left-rotation amounts. -/
def md5S : List ℕ :=
  [7, 12, 17, 22, 7, 12, 17, 22, 7, 12, 17, 22, 7, 12, 17, 22,
   5, 9, 14, 20, 5, 9, 14, 20, 5, 9, 14, 20, 5, 9, 14, 20,
   4, 11, 16, 23, 4, 11, 16, 23, 4, 11, 16, 23, 4, 11, 16, 23,
   6, 10, 15, 21, 6, 10, 15, 21, 6, 10, 15, 21, 6, 10, 15, 21]

def md5F (i b c d : ℕ) : ℕ :=
  if i < 16 then Nat.lor (Nat.land b c) (Nat.land (not32 b) d)
  else if i < 32 then Nat.lor (Nat.land d b) (Nat.land (not32 d) c)
  else if i < 48 then Nat.xor b (Nat.xor c d)
  else Nat.xor c (Nat.lor b (not32 d))

def md5G (i : ℕ) : ℕ :=
  if i < 16 then i
  else if i < 32 then (5 * i + 1) % 16
  else if i < 48 then (3 * i + 5) % 16
  else 7 * i % 16

structure MD5State where
  a : ℕ
  b : ℕ
  c : ℕ
  d : ℕ
  deriving DecidableEq

def md5Round (M : ℕ → ℕ) (st : MD5State) (i : ℕ) : MD5State :=
  let f := (md5F i st.b st.c st.d + st.a + md5K.getD i 0 + M (md5G i)) % 4294967296
  ⟨st.d, (st.b + rotl32 f (md5S.getD i 0)) % 4294967296, st.b, st.c⟩

/-- Process one 64-byte chunk (little-endian 32-bit words). -/
def md5Chunk (st : MD5State) (chunk : List ℕ) : MD5State :=
  let M : ℕ → ℕ := fun g =>
    chunk.getD (4 * g) 0 + 256 * chunk.getD (4 * g + 1) 0
      + 65536 * chunk.getD (4 * g + 2) 0 + 16777216 * chunk.getD (4 * g + 3) 0
  let r := (List.range 64).foldl (md5Round M) st
  ⟨(st.a + r.a) % 4294967296, (st.b + r.b) % 4294967296,
   (st.c + r.c) % 4294967296, (st.d + r.d) % 4294967296⟩

/-- Chunk loop with a structural fuel argument (the fuel `msg.length + 1`
supplied by `md5Chunks` is always sufficient, since every step consumes at
least one byte). -/
def md5ChunksGo : ℕ → MD5State → List ℕ → MD5State
  | 0, st, _ => st
  | _ + 1, st, [] => st
  | fuel + 1, st, b :: bs =>
    md5ChunksGo fuel (md5Chunk st ((b :: bs).take 64)) ((b :: bs).drop 64)

def md5Chunks (st : MD5State) (msg : List ℕ) : MD5State :=
  md5ChunksGo (msg.length + 1) st msg

def leBytes4 (x : ℕ) : List ℕ :=
  [x % 256, x / 256 % 256, x / 65536 % 256, x / 16777216 % 256]

def leBytes8 (x : ℕ) : List ℕ :=
  [x % 256, x / 2 ^ 8 % 256, x / 2 ^ 16 % 256, x / 2 ^ 24 % 256,
   x / 2 ^ 32 % 256, x / 2 ^ 40 % 256, x / 2 ^ 48 % 256, x / 2 ^ 56 % 256]

/-- MD5 digest (16 bytes) of a byte message. -/
def md5Bytes (msg : List ℕ) : List ℕ :=
  let padded := msg ++ 0x80 :: List.replicate ((120 - (msg.length + 1) % 64) % 64) 0
    ++ leBytes8 (8 * msg.length % 2 ^ 64)
  let st := md5Chunks ⟨0x67452301, 0xefcdab89, 0x98badcfe, 0x10325476⟩ padded
  leBytes4 st.a ++ leBytes4 st.b ++ leBytes4 st.c ++ leBytes4 st.d

/-- `WatermarkEncoder::encode(text).md5_hash` (encoder.rs:32): lowercase hex
digest of the text's UTF-8 bytes. -/
def encode_md5_hash (text : List Char) : List Char :=
  bytes_to_hex (md5Bytes (utf8Bytes text))

/-- `WatermarkEncoder::encode(text).binary_sequence` (encoder.rs:35–41): the
16 digest bytes as 128 bits, MSB first within each byte. -/
def encode_binary_sequence (text : List Char) : List ℕ :=
  (md5Bytes (utf8Bytes text)).flatMap byteToBits

/-- Sanity check against the repository's own test vector
(encoder.rs `test_encode_known_text`): MD5("Hello, World!"). -/
example : encode_md5_hash "Hello, World!".data
    = "65a8e27d8879283831b664bd8b7f0ad4".data := by decide

/-! ## JSON values (serde_json with the preserve_order feature)

`serde_json::Value` with `Map` = `IndexMap` (the source calls the IndexMap
method `shift_remove`, json_marker.rs:222): an object is an ordered list of
entries with pairwise-distinct keys.  Number contents never matter to any
claim and are carried as `ℚ`. -/

inductive JValue where
  | null
  | bool (b : Bool)
  | num (q : ℚ)
  | str (s : List Char)
  | arr (elems : List JValue)
  | obj (entries : List (List Char × JValue))

/-- `Value::as_str` -/
def JValue.asStr : JValue → Option (List Char)
  | .str s => some s
  | _ => none

/-! ## JSON watermark scanner and injector (json_marker.rs) -/

/-- `is_md5_like` (json_marker.rs:25–27): `s.len() == 32` (UTF-8 byte
length) and every byte in `b'0'..=b'9' | b'a'..=b'f'`. -/
def isHexByte (b : ℕ) : Bool :=
  (48 ≤ b && b ≤ 57) || (97 ≤ b && b ≤ 102)

def is_md5_like (s : List Char) : Bool :=
  (utf8Bytes s).length == 32 && (utf8Bytes s).all isHexByte

/-- Lowercase-hex test on a character (used to state the spec's
`[0-9a-f]` character class). -/
def isHexLowerChar (c : Char) : Bool :=
  (48 ≤ c.toNat && c.toNat ≤ 57) || (97 ≤ c.toNat && c.toNat ≤ 102)

/-- `is_watermark_value` (json_marker.rs:30–32): MD5-shaped, or prefixed by
`txt:`, or prefixed by `aes:`.  (`str::starts_with` is a byte-prefix test;
for the ASCII patterns `txt:`/`aes:` this coincides with the character
prefix test used here, since UTF-8 is prefix-synchronised.) -/
def is_watermark_value (s : List Char) : Bool :=
  is_md5_like s || "txt:".data.isPrefixOf s || "aes:".data.isPrefixOf s

/-- The watermark value-token shape as the SPEC words it (§3):
`^[0-9a-f]{32}$`, `^txt:.*`, or `^aes:[0-9a-f]+$`.  This definition follows
the spec's words, for comparison against the source's
`is_watermark_value`. -/
def specWatermarkShape (s : List Char) : Bool :=
  (s.length == 32 && s.all isHexLowerChar)
  || "txt:".data.isPrefixOf s
  || ("aes:".data.isPrefixOf s && !(s.drop 4).isEmpty && (s.drop 4).all isHexLowerChar)

/-- The AES-GCM / SHA-256 primitives of the `aes_gcm`/`sha2` crates,
abstracted: `deriveKey` is SHA-256 of the passphrase (json_marker.rs:54–58),
`encrypt`/`decrypt` are AES-256-GCM seal/open (json_marker.rs:61–91).
`encrypt` is total: the `aead` error path exists in the source but fires
only past the AEAD length limit, unreachable for in-memory strings.
No claim depends on the primitives' values, so every theorem below is
stated for an arbitrary oracle. -/
structure AesOracle where
  deriveKey : List Char → List ℕ
  encrypt : List ℕ → List ℕ → List ℕ → List ℕ
  decrypt : List ℕ → List ℕ → List ℕ → Option (List ℕ)

/-- A concrete oracle instance used by witnesses (any instance will do). -/
def trivAes : AesOracle :=
  ⟨fun _ => List.replicate 32 0, fun _ _ pt => pt ++ List.replicate 16 0, fun _ _ _ => none⟩

/-- Byte positions that are character boundaries of the UTF-8 encoding of
`s` (`str::is_char_boundary`). -/
def isBoundary : List Char → ℕ → Bool
  | _, 0 => true
  | [], _ + 1 => false
  | c :: t, i + 1 =>
    if i + 1 < (utf8EncodeChar c).length then false
    else isBoundary t (i + 1 - (utf8EncodeChar c).length)

/-- `u8::from_str_radix(two_byte_slice, 16)`: an optional leading `+`, then
hex digits (either case), at least one digit. -/
def hexByteVal (b : ℕ) : Option ℕ :=
  if 48 ≤ b ∧ b ≤ 57 then some (b - 48)
  else if 97 ≤ b ∧ b ≤ 102 then some (b - 87)
  else if 65 ≤ b ∧ b ≤ 70 then some (b - 55)
  else none

def parseU8Hex (b1 b2 : ℕ) : Option ℕ :=
  if b1 = 43 then hexByteVal b2
  else
    match hexByteVal b1, hexByteVal b2 with
    | some h, some l => some (16 * h + l)
    | _, _ => none

/-- Outcome of `aes_decrypt` (json_marker.rs:74–91). `err` stands for any
returned `BlindMarkError`; `panicked` models the `&hex[i..i+2]` byte slice
panic raised when `i` or `i+2` is not a character boundary of the hex
part. -/
inductive AesDecryptResult where
  | ok (plaintext : List Char)
  | err
  | panicked
  deriving DecidableEq

/-- The pair loop of `hex_to_bytes` (json_marker.rs:44–50):
`(0..hex.len()).step_by(2)`, slicing `&hex[i..i+2]` (which panics off a char
boundary) and parsing each slice with `from_str_radix(_, 16)`; `collect`
stops at the first error, in order. -/
def hexPairsGo (s : List Char) : ℕ → ℕ → AesDecryptResult ⊕ List ℕ
  | 0, _ => .inr []
  | k + 1, i =>
    if isBoundary s i && isBoundary s (i + 2) then
      match parseU8Hex ((utf8Bytes s).getD i 0) ((utf8Bytes s).getD (i + 1) 0) with
      | some v =>
        match hexPairsGo s k (i + 2) with
        | .inr vs => .inr (v :: vs)
        | e => e
      | none => .inl .err
    else .inl .panicked

/-- `hex_to_bytes` (json_marker.rs:40–51) as called on the hex part of an
`aes:` token, including the byte-slice boundary panic of `&hex[i..i + 2]`. -/
def hex_to_bytes (s : List Char) : AesDecryptResult ⊕ List ℕ :=
  if (utf8Bytes s).length % 2 ≠ 0 then .inl .err
  else hexPairsGo s ((utf8Bytes s).length / 2) 0

/-- `aes_decrypt` (json_marker.rs:74–91): strip the `aes:` prefix, hex
decode, split the 12-byte nonce from the ciphertext, GCM-open, and check the
plaintext is UTF-8.  Every returned error is `err`; the byte-slice panic in
the hex loop is `panicked`. -/
def aes_decrypt (O : AesOracle) (keyBytes : List ℕ) (encoded : List Char) :
    AesDecryptResult :=
  if "aes:".data.isPrefixOf encoded then
    match hex_to_bytes (encoded.drop 4) with
    | .inl r => r
    | .inr combined =>
      if combined.length < 12 then .err
      else
        match O.decrypt keyBytes (combined.take 12) (combined.drop 12) with
        | none => .err
        | some pt =>
          match utf8Decode pt with
          | some t => .ok t
          | none => .err
  else .err

/-- `JsonWatermarker::decode_watermark` (json_marker.rs:180–198).  The Rust
function returns the `(value, mode, decoded)` triple directly; its only
non-returning behaviour is the panic inside `aes_decrypt`, modelled as
`.error .panicked`. -/
def decode_watermark (O : AesOracle) (raw : List Char) (aesKey : Option (List Char)) :
    Except BMError (List Char × List Char × Bool) :=
  if "txt:".data.isPrefixOf raw then .ok (raw.drop 4, "plaintext".data, true)
  else if "aes:".data.isPrefixOf raw then
    match aesKey with
    | some keyStr =>
      match aes_decrypt O (O.deriveKey keyStr) raw with
      | .ok pt => .ok (pt, "aes".data, true)
      | .err => .ok (raw, "aes".data, false)
      | .panicked => .error .panicked
    | none => .ok (raw, "aes".data, false)
  else if is_md5_like raw then .ok (raw, "md5".data, true)
  else .ok (raw, "unknown".data, false)

/-- `JsonWatermarker::scan_watermark_values` (json_marker.rs:342–357).  The
`content` argument is the parse result of the input text: `none` models a
`serde_json` parse failure (the source returns `vec![]`).  A panic inside
`decode_watermark` propagates. -/
def scan_watermark_values (content : Option JValue) (aesKey : Option (List Char))
    (O : AesOracle) : Except BMError (List (List Char × List Char × Bool)) :=
  match content with
  | none => .ok []
  | some (.obj entries) =>
    (((entries.map Prod.snd).filterMap JValue.asStr).filter
        (fun s => is_watermark_value s)).mapM
      (fun s => decode_watermark O s aesKey)
  | some _ => .ok []

/-- `JsonWatermarker::encode_watermark` (json_marker.rs:155–171).  The
random 12-byte GCM nonce of `aes_encrypt` is passed in by the caller's
environment (`OsRng`), quantified in the theorems. -/
def encode_watermark (O : AesOracle) (nonce : List ℕ) (text : List Char)
    (mode : List Char) (aesKey : Option (List Char)) : Except BMError (List Char) :=
  if mode = "plaintext".data then .ok ("txt:".data ++ text)
  else if mode = "aes".data then
    match aesKey with
    | none => .error .aesKeyMissing
    | some k =>
      .ok ("aes:".data
        ++ bytes_to_hex (nonce ++ O.encrypt (O.deriveKey k) nonce (utf8Bytes text)))
  else .ok (encode_md5_hash text)

theorem utf8EncodeChar_ascii (c : Char) (h : c.toNat < 128) :
    utf8EncodeChar c = [c.toNat] := by
  unfold utf8EncodeChar
  rw [if_pos h]

theorem hexLower_lt_128 {c : Char} (h : isHexLowerChar c = true) : c.toNat < 128 := by
  unfold isHexLowerChar at h
  simp only [Bool.or_eq_true, Bool.and_eq_true, decide_eq_true_eq] at h
  omega

/-- A UTF-8 byte stream is all lowercase-hex bytes exactly when every
character of the string is a lowercase-hex (hence ASCII) character. -/
theorem utf8_hex_equiv (s : List Char) :
    ((utf8Bytes s).all isHexByte = true) ↔ (∀ c ∈ s, isHexLowerChar c = true) := by
  induction s with
  | nil => simp [utf8Bytes]
  | cons c t ih =>
    rw [show utf8Bytes (c :: t) = utf8EncodeChar c ++ utf8Bytes t from rfl,
      List.all_append, Bool.and_eq_true]
    constructor
    · rintro ⟨h1, h2⟩
      intro x hx
      rcases List.mem_cons.mp hx with rfl | hx
      · by_cases hc : x.toNat < 128
        · rw [utf8EncodeChar_ascii x hc] at h1
          simp only [List.all_cons, List.all_nil, Bool.and_true] at h1
          exact h1
        · exfalso
          have hval := char_toNat_valid x
          unfold utf8EncodeChar at h1
          rw [if_neg hc] at h1
          split at h1 <;> [skip; split at h1] <;>
            · simp only [List.all_cons, Bool.and_eq_true] at h1
              have := h1.1
              unfold isHexByte at this
              simp only [Bool.or_eq_true, Bool.and_eq_true, decide_eq_true_eq] at this
              omega
      · exact ih.mp h2 x hx
    · intro h
      have hc := h c (List.mem_cons_self c t)
      refine ⟨?_, ih.mpr fun x hx => h x (List.mem_cons_of_mem c hx)⟩
      rw [utf8EncodeChar_ascii c (hexLower_lt_128 hc)]
      simp only [List.all_cons, List.all_nil, Bool.and_true]
      exact hc

theorem utf8Bytes_length_ascii (s : List Char) (h : ∀ c ∈ s, c.toNat < 128) :
    (utf8Bytes s).length = s.length := by
  induction s with
  | nil => rfl
  | cons c t ih =>
    rw [show utf8Bytes (c :: t) = utf8EncodeChar c ++ utf8Bytes t from rfl,
      List.length_append, utf8EncodeChar_ascii c (h c (List.mem_cons_self c t)),
      ih fun x hx => h x (List.mem_cons_of_mem c hx)]
    simp [Nat.add_comm]

/-- The byte-level MD5 test of the source is the character-level regex
`^[0-9a-f]{32}$` of the spec. -/
theorem is_md5_like_iff (s : List Char) :
    is_md5_like s = true ↔ (s.length = 32 ∧ ∀ c ∈ s, isHexLowerChar c = true) := by
  unfold is_md5_like
  rw [Bool.and_eq_true, beq_iff_eq, utf8_hex_equiv]
  constructor
  · rintro ⟨hlen, hhex⟩
    refine ⟨?_, hhex⟩
    rw [← utf8Bytes_length_ascii s fun c hc => hexLower_lt_128 (hhex c hc)]
    exact hlen
  · rintro ⟨hlen, hhex⟩
    refine ⟨?_, hhex⟩
    rw [utf8Bytes_length_ascii s fun c hc => hexLower_lt_128 (hhex c hc)]
    exact hlen

/-- C1 counterexample: the source's format test accepts `"aes:zz"`, which
matches none of the spec's three shapes (`zz` is not hex), and the scanner
does treat it as a watermark, returning a finding for it. -/
theorem aes_prefix_not_spec_shape :
    is_watermark_value "aes:zz".data = true
    ∧ specWatermarkShape "aes:zz".data = false
    ∧ scan_watermark_values (some (.obj [("k".data, .str "aes:zz".data)])) none trivAes
        = .ok [("aes:zz".data, "aes".data, false)] :=
  ⟨by decide, by decide, rfl⟩

/-- C1 (amended): the scanner's format test `is_watermark_value` accepts a
string exactly when it matches `^[0-9a-f]{32}$`, `^txt:` or `^aes:` — the
AES arm requires only the `aes:` prefix, not `^aes:[0-9a-f]+$` — and
`scan_watermark_values` treats no other string as a watermark: an object
none of whose string values passes the test scans to no findings. -/
theorem is_watermark_value_characterization :
    (∀ s : List Char,
      is_watermark_value s = true
        ↔ (s.length = 32 ∧ ∀ c ∈ s, isHexLowerChar c = true)
          ∨ "txt:".data.isPrefixOf s = true ∨ "aes:".data.isPrefixOf s = true)
    ∧ ∀ (entries : List (List Char × JValue)) (key : Option (List Char)) (O : AesOracle),
        (∀ v ∈ entries.map Prod.snd, ∀ s, v.asStr = some s → is_watermark_value s = false) →
        scan_watermark_values (some (.obj entries)) key O = .ok [] := by
  constructor
  · intro s
    unfold is_watermark_value
    simp only [Bool.or_eq_true]
    rw [is_md5_like_iff]
    tauto
  · intro entries key O h
    show (((entries.map Prod.snd).filterMap JValue.asStr).filter
        (fun s => is_watermark_value s)).mapM (fun s => decode_watermark O s key) = .ok []
    rw [List.filter_eq_nil_iff.mpr ?_]
    · rfl
    · intro s hs
      obtain ⟨v, hv, hvs⟩ := List.mem_filterMap.mp hs
      simp only [Bool.not_eq_true]
      exact h v hv s hvs

/-- Witness for the C1 amended theorem: the characterization applied to the
concrete token `"txt:hi"`, and the scan of an object with no string value. -/
theorem is_watermark_value_characterization_witness :
    is_watermark_value "txt:hi".data = true
    ∧ scan_watermark_values (some (.obj [("k".data, JValue.null)])) none trivAes = .ok [] :=
  ⟨(is_watermark_value_characterization.1 "txt:hi".data).mpr
      (Or.inr (Or.inl (by decide))),
    is_watermark_value_characterization.2 [("k".data, JValue.null)] none trivAes
      (by
        intro v hv s hs
        simp only [List.map_cons, List.map_nil, List.mem_singleton] at hv
        subst hv
        exact Option.noConfusion hs)⟩

/-! ## Image pipeline (dwt.rs, dct.rs, embedder.rs, extractor.rs)

`f64` samples are idealised as elements of a linear ordered field `α` with a
floor (for the `as u8` cast); witnesses instantiate `α := ℚ`.  The Haar taps
use `1/√2`, carried as an explicit `sqrt2 : α` parameter.  The per-block
numeric kernel — forward 2-D DCT, password-seeded shuffle, SVD, QIM on the
two leading singular values, reconstruction, inverse shuffle, inverse DCT
(dct.rs:79–105) — is a total function of the 16 coefficients, the payload
bit and the block index; none of the claims below depends on its values, so
the pipeline is parametrised by it (`B`), and likewise by the per-block
soft-extraction kernel (dct.rs:146–157, `Bx`). -/

/-- An `ndarray::Array2<f64>` channel matrix: shape plus entries.  Entries
are total functions; every access the source performs is in bounds. -/
structure Mat (α : Type) where
  rows : ℕ
  cols : ℕ
  entry : ℕ → ℕ → α

/-- An 8-bit RGB image (`image::RgbImage`): dimensions and pixel channels.
Channel values of a real image are `u8`, i.e. `< 256` (`Valid` below). -/
structure RgbImage where
  width : ℕ
  height : ℕ
  pix : ℕ → ℕ → ℕ × ℕ × ℕ

def RgbImage.Valid (img : RgbImage) : Prop :=
  ∀ x y, (img.pix x y).1 < 256 ∧ (img.pix x y).2.1 < 256 ∧ (img.pix x y).2.2 < 256

section Pipeline

variable {α : Type} [LinearOrderedField α] [FloorRing α]

/-- Row pass of the 2-D Haar transform (dwt.rs:146–157): lows in the left
half, highs in the right half. -/
def dwt_rowpass (sqrt2 : α) (m : Mat α) : Mat α :=
  ⟨m.rows, m.cols, fun i j =>
    if j < m.cols / 2 then (m.entry i (2 * j) + m.entry i (2 * j + 1)) / sqrt2
    else (m.entry i (2 * (j - m.cols / 2)) - m.entry i (2 * (j - m.cols / 2) + 1)) / sqrt2⟩

/-- Column pass of the 2-D Haar transform (dwt.rs:159–171). -/
def dwt_colpass (sqrt2 : α) (m : Mat α) : Mat α :=
  ⟨m.rows, m.cols, fun i j =>
    if i < m.rows / 2 then (m.entry (2 * i) j + m.entry (2 * i + 1) j) / sqrt2
    else (m.entry (2 * (i - m.rows / 2)) j - m.entry (2 * (i - m.rows / 2) + 1) j) / sqrt2⟩

/-- `dwt_2d` (dwt.rs:140–179): row pass, column pass, then slice the four
subbands, each of shape `(rows/2, cols/2)`. -/
def dwt_2d (sqrt2 : α) (m : Mat α) : Mat α × Mat α × Mat α × Mat α :=
  let t := dwt_colpass sqrt2 (dwt_rowpass sqrt2 m)
  (⟨m.rows / 2, m.cols / 2, fun i j => t.entry i j⟩,
   ⟨m.rows / 2, m.cols / 2, fun i j => t.entry i (j + m.cols / 2)⟩,
   ⟨m.rows / 2, m.cols / 2, fun i j => t.entry (i + m.rows / 2) j⟩,
   ⟨m.rows / 2, m.cols / 2, fun i j => t.entry (i + m.rows / 2) (j + m.cols / 2)⟩)

/-- `DWTProcessor::decompose_1level` (dwt.rs:112–124): reject odd
dimensions, else one 2-D Haar level. -/
def decompose_1level (sqrt2 : α) (m : Mat α) :
    Except BMError (Mat α × Mat α × Mat α × Mat α) :=
  if m.rows % 2 ≠ 0 ∨ m.cols % 2 ≠ 0 then .error (.dimensionOdd m.cols m.rows)
  else .ok (dwt_2d sqrt2 m)

/-- `idwt_2d` (dwt.rs:183–230): place the four subbands back into one
matrix, inverse-transform columns, then rows. -/
def idwt_2d (sqrt2 : α) (ll lh hl hh : Mat α) : Mat α :=
  let hh2 := ll.rows
  let ww2 := ll.cols
  let combined : Mat α := ⟨2 * hh2, 2 * ww2, fun i j =>
    if i < hh2 then
      (if j < ww2 then ll.entry i j else lh.entry i (j - ww2))
    else
      (if j < ww2 then hl.entry (i - hh2) j else hh.entry (i - hh2) (j - ww2))⟩
  let colT : Mat α := ⟨2 * hh2, 2 * ww2, fun i j =>
    if i % 2 = 0 then (combined.entry (i / 2) j + combined.entry (i / 2 + hh2) j) / sqrt2
    else (combined.entry (i / 2) j - combined.entry (i / 2 + hh2) j) / sqrt2⟩
  ⟨2 * hh2, 2 * ww2, fun i j =>
    if j % 2 = 0 then (colT.entry i (j / 2) + colT.entry i (j / 2 + ww2)) / sqrt2
    else (colT.entry i (j / 2) - colT.entry i (j / 2 + ww2)) / sqrt2⟩

/-- `DWTProcessor::reconstruct_1level` (dwt.rs:127–135).  (`ihaar_1d`'s
length-mismatch error is unreachable from this caller: all four subbands
come out of `dwt_2d`/`embed_watermark_blocks` with equal shapes.) -/
def reconstruct_1level (sqrt2 : α) (ll lh hl hh : Mat α) : Mat α :=
  idwt_2d sqrt2 ll lh hl hh

/-- `DCTProcessor::read_block` (dct.rs:180–188): a 4×4 block of LL,
row-major, as a 16-slot function. -/
def readBlock (ll : Mat α) (bi bj : ℕ) : ℕ → α :=
  fun k => ll.entry (bi * 4 + k / 4) (bj * 4 + k % 4)

/-- `DCTProcessor::write_block` (dct.rs:191–197). -/
def writeBlock (ll : Mat α) (bi bj : ℕ) (blk : ℕ → α) : Mat α :=
  ⟨ll.rows, ll.cols, fun r c =>
    if bi * 4 ≤ r ∧ r < bi * 4 + 4 ∧ bj * 4 ≤ c ∧ c < bj * 4 + 4 then
      blk ((r - bi * 4) * 4 + (c - bj * 4))
    else ll.entry r c⟩

/-- `DCTProcessor::embed_watermark_blocks` (dct.rs:55–112).  `B` is the
per-block numeric kernel (see the section comment).  The capacity check is
the spec's `PayloadTooLarge(N, W)`.  `wmBits.get? (idx % wmBits.length)`
models the index expression `wm_bits[block_idx % wm_bits.len()]`: for an
empty payload the Rust remainder is a remainder by zero, a panic, and the
model's lookup is `none` exactly then. -/
def embed_watermark_blocks (B : (ℕ → α) → ℕ → ℕ → ℕ → α) (ll : Mat α)
    (wmBits : List ℕ) : Except BMError (Mat α) :=
  if ll.rows / 4 * (ll.cols / 4) < wmBits.length then
    .error (.payloadTooLarge (ll.rows / 4 * (ll.cols / 4)) wmBits.length)
  else
    (List.range (ll.rows / 4 * (ll.cols / 4))).foldlM (fun m idx =>
      match wmBits.get? (idx % wmBits.length) with
      | none => .error .panicked
      | some bit =>
        .ok (writeBlock m (idx / (ll.cols / 4)) (idx % (ll.cols / 4))
          (B (readBlock m (idx / (ll.cols / 4)) (idx % (ll.cols / 4))) bit idx))) ll

/-- `DCTProcessor::extract_watermark_blocks_soft` (dct.rs:121–175): capacity
check, per-block soft value through the kernel `Bx`, then cyclic averaging
over the copies `i, i+wmSize, i+2·wmSize, …`. -/
def extract_watermark_blocks_soft (Bx : (ℕ → α) → ℕ → α) (ll : Mat α)
    (wmSize : ℕ) : Except BMError (List α) :=
  if ll.rows / 4 * (ll.cols / 4) < wmSize then
    .error (.payloadTooLarge (ll.rows / 4 * (ll.cols / 4)) wmSize)
  else
    .ok ((List.range wmSize).map (fun i =>
      let js := (List.range (ll.rows / 4 * (ll.cols / 4))).filter (fun j => j % wmSize = i)
      if 0 < js.length then
        (js.map (fun idx =>
          Bx (readBlock ll (idx / (ll.cols / 4)) (idx % (ll.cols / 4))) idx)).sum
          / (js.length : α)
      else 1 / 2))

/-- `x.clamp(0.0, 255.0) as u8` (embedder.rs:170–172): clamp to `[0, 255]`
then truncate toward zero (equal to `floor` on the clamped nonnegative
value). -/
def u8clamp (x : α) : ℕ := (⌊max 0 (min x 255)⌋).toNat

/-- The channel matrix of one RGB channel (embedder.rs:141–153,
extractor.rs:100–107): entry `(y, x)` is the pixel channel as a float. -/
def channelMat (img : RgbImage) (ch : ℕ) : Mat α :=
  ⟨img.height, img.width, fun y x =>
    if ch = 0 then ((img.pix x y).1 : ℕ)
    else if ch = 1 then (img.pix x y).2.1
    else (img.pix x y).2.2⟩

/-- One channel of `embed_bits`' loop body (embedder.rs:155–164): DWT,
embed into LL, IDWT. -/
def embedChannel (sqrt2 : α) (B : (ℕ → α) → ℕ → ℕ → ℕ → α) (m : Mat α)
    (bits : List ℕ) : Except BMError (Mat α) :=
  match decompose_1level sqrt2 m with
  | .error e => .error e
  | .ok (ll, lh, hl, hh) =>
    match embed_watermark_blocks B ll bits with
    | .error e => .error e
    | .ok ll2 => .ok (reconstruct_1level sqrt2 ll2 lh hl hh)

/-- `WatermarkEmbedder::embed_bits` (embedder.rs:124–178): reject odd
dimensions, embed each of the three channels, recompose with the per-channel
clamp to `[0, 255]`. -/
def embed_bits (sqrt2 : α) (B : (ℕ → α) → ℕ → ℕ → ℕ → α) (img : RgbImage)
    (bits : List ℕ) : Except BMError RgbImage :=
  if img.width % 2 ≠ 0 ∨ img.height % 2 ≠ 0 then
    .error (.dimensionOdd img.width img.height)
  else
    match embedChannel sqrt2 B (channelMat img 0) bits with
    | .error e => .error e
    | .ok r0 =>
      match embedChannel sqrt2 B (channelMat img 1) bits with
      | .error e => .error e
      | .ok r1 =>
        match embedChannel sqrt2 B (channelMat img 2) bits with
        | .error e => .error e
        | .ok r2 =>
          .ok ⟨img.width, img.height, fun x y =>
            (u8clamp (r0.entry y x), u8clamp (r1.entry y x), u8clamp (r2.entry y x))⟩

/-- `WatermarkEmbedder::embed` (embedder.rs:43–57): validate the strength
(an `f32`, idealised as `ℚ`), hash the text to the 128-bit MD5 payload,
embed. -/
def embed (sqrt2 : α) (B : (ℕ → α) → ℕ → ℕ → ℕ → α) (img : RgbImage)
    (text : List Char) (strength : ℚ) : Except BMError RgbImage :=
  if strength < 1/10 ∨ strength > 1 then .error (.invalidStrength strength)
  else embed_bits sqrt2 B img (encode_binary_sequence text)

/-- `image.crop_imm(0, 0, n, n)`: the top-left `n×n` region (clipped to the
image, so exactly `n×n` whenever both dimensions are at least `n`). -/
def cropTopLeft (img : RgbImage) (n : ℕ) : RgbImage :=
  ⟨min n img.width, min n img.height, img.pix⟩

/-- The ROI paste-back loop of fast mode (embedder.rs:87–94). -/
def pasteTopLeft (img roi : RgbImage) (n : ℕ) : RgbImage :=
  ⟨img.width, img.height, fun x y =>
    if x < n ∧ y < n then roi.pix x y else img.pix x y⟩

/-- The non-fast body of `embed_raw_text` (embedder.rs:74–78 and 96–98):
validate strength, frame the text, embed.  The source's fast-mode branch
recurses with `fast_mode = false`; that recursive call is exactly this
function (its strength re-validation passes a strength already validated by
the outer call). -/
def embed_raw_text_core (sqrt2 : α) (B : (ℕ → α) → ℕ → ℕ → ℕ → α)
    (img : RgbImage) (text : List Char) (strength : ℚ) : Except BMError RgbImage :=
  if strength < 1/10 ∨ strength > 1 then .error (.invalidStrength strength)
  else
    match text_to_bits text with
    | .error e => .error e
    | .ok bits => embed_bits sqrt2 B img bits

/-- `WatermarkEmbedder::embed_raw_text` (embedder.rs:67–99), the source's
single recursion unrolled (see `embed_raw_text_core`). -/
def embed_raw_text (sqrt2 : α) (B : (ℕ → α) → ℕ → ℕ → ℕ → α) (img : RgbImage)
    (text : List Char) (strength : ℚ) (fast : Bool) : Except BMError RgbImage :=
  if strength < 1/10 ∨ strength > 1 then .error (.invalidStrength strength)
  else if fast = true ∧ 512 < img.width ∧ 512 < img.height then
    match embed_raw_text_core sqrt2 B (cropTopLeft img 512) text strength with
    | .error e => .error e
    | .ok roi => .ok (pasteTopLeft img roi 512)
  else
    match text_to_bits text with
    | .error e => .error e
    | .ok bits => embed_bits sqrt2 B img bits

/-- `WatermarkExtractor::extract_soft_sum` (extractor.rs:82–124): reject odd
dimensions, per-channel DWT + soft block extraction, sum the three channel
vectors pointwise. -/
def extract_soft_sum (sqrt2 : α) (Bx : (ℕ → α) → ℕ → α) (img : RgbImage)
    (wmSize : ℕ) : Except BMError (List α) :=
  if img.width % 2 ≠ 0 ∨ img.height % 2 ≠ 0 then
    .error (.dimensionOdd img.width img.height)
  else
    let chSoft : ℕ → Except BMError (List α) := fun ch =>
      match decompose_1level sqrt2 (channelMat img ch) with
      | .error _ => .error BMError.dwtFailed
      | .ok (ll, _, _, _) => extract_watermark_blocks_soft Bx ll wmSize
    match chSoft 0 with
    | .error e => .error e
    | .ok s0 =>
      match chSoft 1 with
      | .error e => .error e
      | .ok s1 =>
        match chSoft 2 with
        | .error e => .error e
        | .ok s2 =>
          .ok ((List.range wmSize).map (fun i =>
            s0.getD i 0 + s1.getD i 0 + s2.getD i 0))

/-- `WatermarkEncoder::decode` (encoder.rs:50–79): 128 bits, all `≤ 1`,
re-packed MSB-first into 16 bytes and hex-formatted. -/
def encoder_decode (bits : List ℕ) : Except BMError (List Char) :=
  if bits.length ≠ 128 then .error (.decodeLengthInvalid bits.length)
  else if bits.any (fun b => 1 < b) then .error .decodeBitInvalid
  else .ok (bytes_to_hex ((List.range 16).map (fun k =>
    ((List.range 8).map (fun j => bits.getD (8 * k + j) 0 * 2 ^ (7 - j))).sum)))

/-- `WatermarkExtractor::extract` (extractor.rs:34–41): soft-sum at 128
bits, threshold at `1.5`, decode to the MD5 hex string. -/
def extract (sqrt2 : α) (Bx : (ℕ → α) → ℕ → α) (img : RgbImage) :
    Except BMError (List Char) :=
  match extract_soft_sum sqrt2 Bx img 128 with
  | .error e => .error e
  | .ok soft => encoder_decode (soft.map (fun v => if (3/2 : α) < v then 1 else 0))

/-- `WatermarkExtractor::try_extract_text` (extractor.rs:55–68): any
`extract_soft_sum` failure — including the odd-dimension error — is turned
into `Ok(None)`; otherwise threshold at `1.5` and parse the 544-bit frame. -/
def try_extract_text (sqrt2 : α) (Bx : (ℕ → α) → ℕ → α) (img : RgbImage) :
    Except BMError (Option (List Char)) :=
  match extract_soft_sum sqrt2 Bx img 544 with
  | .error _ => .ok none
  | .ok soft => .ok (bits_to_text (soft.map (fun v => if (3/2 : α) < v then 1 else 0)))

/-- `WatermarkExtractor::extract_text` (extractor.rs:71–75). -/
def extract_text (sqrt2 : α) (Bx : (ℕ → α) → ℕ → α) (img : RgbImage) :
    Except BMError (List Char) :=
  match try_extract_text sqrt2 Bx img with
  | .error e => .error e
  | .ok (some t) => .ok t
  | .ok none => .error .extractionNotFound

end Pipeline

section PipelineLemmas

variable {α : Type} [LinearOrderedField α] [FloorRing α]

theorem foldlM_ok_of_total {β : Type} (f : β → ℕ → Except BMError β) (l : List ℕ)
    (h : ∀ m : β, ∀ idx ∈ l, ∃ m', f m idx = .ok m') :
    ∀ init : β, ∃ out, l.foldlM f init = .ok out := by
  induction l with
  | nil => intro init; exact ⟨init, rfl⟩
  | cons x xs ih =>
    intro init
    obtain ⟨m', hm'⟩ := h init x (List.mem_cons_self x xs)
    obtain ⟨out, hout⟩ := ih (fun m idx hidx => h m idx (List.mem_cons_of_mem x hidx)) m'
    refine ⟨out, ?_⟩
    rw [List.foldlM_cons, hm']
    simpa using hout

theorem embed_watermark_blocks_ok (B : (ℕ → α) → ℕ → ℕ → ℕ → α) (ll : Mat α)
    (bits : List ℕ) (hcap : bits.length ≤ ll.rows / 4 * (ll.cols / 4))
    (hne : bits ≠ []) :
    ∃ out, embed_watermark_blocks B ll bits = .ok out := by
  unfold embed_watermark_blocks
  rw [if_neg (by omega)]
  apply foldlM_ok_of_total
  intro m idx _
  have hlen : 0 < bits.length := List.length_pos.mpr hne
  have hlt : idx % bits.length < bits.length := Nat.mod_lt _ hlen
  rw [List.get?_eq_get hlt]
  exact ⟨_, rfl⟩

theorem embedChannel_ok (sqrt2 : α) (B : (ℕ → α) → ℕ → ℕ → ℕ → α) (m : Mat α)
    (bits : List ℕ) (hr : m.rows % 2 = 0) (hc : m.cols % 2 = 0)
    (hcap : bits.length ≤ m.rows / 2 / 4 * (m.cols / 2 / 4)) (hne : bits ≠ []) :
    ∃ r, embedChannel sqrt2 B m bits = .ok r := by
  unfold embedChannel
  have hdec : decompose_1level sqrt2 m = .ok (dwt_2d sqrt2 m) := by
    unfold decompose_1level
    rw [if_neg (by omega)]
  rw [hdec]
  rcases hdw : dwt_2d sqrt2 m with ⟨ll, lh, hl, hh⟩
  have hrows : ll.rows = m.rows / 2 := by
    have := congrArg (fun p => p.1.rows) hdw
    simpa [dwt_2d] using this.symm
  have hcols : ll.cols = m.cols / 2 := by
    have := congrArg (fun p => p.1.cols) hdw
    simpa [dwt_2d] using this.symm
  obtain ⟨ll2, hll2⟩ := embed_watermark_blocks_ok B ll bits
    (by rw [hrows, hcols]; exact hcap) hne
  refine ⟨reconstruct_1level sqrt2 ll2 lh hl hh, ?_⟩
  show (match embed_watermark_blocks B ll bits with
    | Except.error e => Except.error e
    | Except.ok ll2 => Except.ok (reconstruct_1level sqrt2 ll2 lh hl hh)) = _
  rw [hll2]

theorem embed_bits_ok (sqrt2 : α) (B : (ℕ → α) → ℕ → ℕ → ℕ → α) (img : RgbImage)
    (bits : List ℕ) (hw : img.width % 2 = 0) (hh : img.height % 2 = 0)
    (hcap : bits.length ≤ img.height / 2 / 4 * (img.width / 2 / 4)) (hne : bits ≠ []) :
    ∃ r0 r1 r2 : Mat α, embed_bits sqrt2 B img bits
      = .ok ⟨img.width, img.height, fun x y =>
          (u8clamp (r0.entry y x), u8clamp (r1.entry y x), u8clamp (r2.entry y x))⟩ := by
  unfold embed_bits
  rw [if_neg (by omega)]
  obtain ⟨r0, h0⟩ := embedChannel_ok sqrt2 B (channelMat img 0) bits hh hw hcap hne
  obtain ⟨r1, h1⟩ := embedChannel_ok sqrt2 B (channelMat img 1) bits hh hw hcap hne
  obtain ⟨r2, h2⟩ := embedChannel_ok sqrt2 B (channelMat img 2) bits hh hw hcap hne
  rw [h0, h1, h2]
  exact ⟨r0, r1, r2, rfl⟩

theorem encode_binary_sequence_length (text : List Char) :
    (encode_binary_sequence text).length = 128 := by
  unfold encode_binary_sequence
  rw [flatMap_byteToBits_length]
  have : (md5Bytes (utf8Bytes text)).length = 16 := by
    simp [md5Bytes, leBytes4]
  rw [this]

theorem encode_binary_sequence_ne_nil (text : List Char) :
    encode_binary_sequence text ≠ [] := by
  intro h
  have := encode_binary_sequence_length text
  rw [h] at this
  exact absurd this (by simp)

theorem text_to_bits_ok (t : List Char) (h : (utf8Bytes t).length ≤ 64) :
    ∃ bits, text_to_bits t = .ok bits ∧ bits.length = 544 ∧ bits ≠ [] := by
  unfold text_to_bits TEXT_WATERMARK_MAX_BYTES TEXT_WATERMARK_TOTAL_BITS
  rw [if_neg (by omega)]
  refine ⟨_, rfl, ?_, ?_⟩
  · simp only [List.length_append, List.length_replicate, List.length_flatMap,
      u16ToBits_length]
    rw [show (TEXT_WATERMARK_MAGIC.map (List.length ∘ byteToBits)).sum = 16 by
      simp [TEXT_WATERMARK_MAGIC, byteToBits_length],
      show ((utf8Bytes t).map (List.length ∘ byteToBits)).sum
          = ((utf8Bytes t).flatMap byteToBits).length from
        (List.length_flatMap _ _).symm,
      flatMap_byteToBits_length]
    omega
  · intro hnil
    have h1 := congrArg List.length hnil
    simp only [List.length_append, List.length_replicate, List.length_nil,
      u16ToBits_length] at h1
    omega

/-- C2 counterexample: for an LL subband of one whole 4×4 block and the
empty payload — `N = 1 ≥ 0 = W`, so the claim predicts success — the block
loop panics: `wm_bits[block_idx % wm_bits.len()]` is a remainder by zero. -/
theorem embed_blocks_empty_payload_panics :
    embed_watermark_blocks (α := ℚ) (fun blk _ _ => blk) ⟨4, 4, fun _ _ => 0⟩ []
      = .error .panicked := rfl

/-- C2 (amended): the per-block embed fails with the capacity error
`PayloadTooLarge(N, W)` exactly when `N < W`; for a nonempty payload it
succeeds whenever `N ≥ W`, including the boundary `N = W`; for the empty
payload with `N ≥ 1` the block loop panics on a remainder by zero instead of
succeeding. -/
theorem embed_blocks_capacity (B : (ℕ → ℚ) → ℕ → ℕ → ℕ → ℚ) (ll : Mat ℚ)
    (bits : List ℕ) :
    (ll.rows / 4 * (ll.cols / 4) < bits.length →
      embed_watermark_blocks B ll bits
        = .error (.payloadTooLarge (ll.rows / 4 * (ll.cols / 4)) bits.length))
    ∧ (bits.length ≤ ll.rows / 4 * (ll.cols / 4) → bits ≠ [] →
      ∃ out, embed_watermark_blocks B ll bits = .ok out)
    ∧ (bits = [] → 1 ≤ ll.rows / 4 * (ll.cols / 4) →
      embed_watermark_blocks B ll bits = .error .panicked) := by
  refine ⟨?_, ?_, ?_⟩
  · intro hlt
    unfold embed_watermark_blocks
    rw [if_pos hlt]
  · intro hcap hne
    exact embed_watermark_blocks_ok B ll bits hcap hne
  · intro hnil hpos
    subst hnil
    unfold embed_watermark_blocks
    rw [if_neg (by simp)]
    obtain ⟨k, hk⟩ := Nat.exists_eq_add_of_le hpos
    rw [hk, Nat.add_comm 1 k, List.range_succ_eq_map, List.foldlM_cons]
    rfl

/-- Witness for the C2 amended theorem: an 8×8 LL subband (4 blocks) and a
2-bit payload; the at-capacity success branch applies. -/
theorem embed_blocks_capacity_witness :
    (([1, 0] : List ℕ).length ≤ (⟨8, 8, fun _ _ => 0⟩ : Mat ℚ).rows / 4
        * ((⟨8, 8, fun _ _ => 0⟩ : Mat ℚ).cols / 4))
    ∧ ([1, 0] : List ℕ) ≠ []
    ∧ ∃ out, embed_watermark_blocks (fun blk _ _ => blk)
        (⟨8, 8, fun _ _ => 0⟩ : Mat ℚ) [1, 0] = .ok out :=
  ⟨by decide, by decide,
    (embed_blocks_capacity (fun blk _ _ => blk) ⟨8, 8, fun _ _ => 0⟩ [1, 0]).2.1
      (by decide) (by decide)⟩

theorem u8clamp_le (x : α) : u8clamp x ≤ 255 := by
  unfold u8clamp
  rw [Int.toNat_le]
  have h1 : max 0 (min x 255) ≤ (255 : α) := max_le (by norm_num) (min_le_right _ _)
  calc ⌊max 0 (min x 255)⌋ ≤ ⌊(255 : α)⌋ := Int.floor_le_floor h1
    _ = 255 := by norm_num

/-- Fast-mode success and output shape, shared by the C5 and C10 theorems:
for both dimensions above 512, the 512×512 ROI is cropped (even dimensions,
4096 blocks ≥ 544 bits), embedded, and pasted back over the original. -/
theorem embed_raw_text_fast_spec (sqrt2 : α) (B : (ℕ → α) → ℕ → ℕ → ℕ → α)
    (img : RgbImage) (text : List Char) (s : ℚ)
    (hs : ¬ (s < 1/10 ∨ 1 < s)) (ht : (utf8Bytes text).length ≤ 64)
    (hw : 512 < img.width) (hh : 512 < img.height) :
    ∃ r0 r1 r2 : Mat α, embed_raw_text sqrt2 B img text s true
      = .ok (pasteTopLeft img
          ⟨(cropTopLeft img 512).width, (cropTopLeft img 512).height, fun x y =>
            (u8clamp (r0.entry y x), u8clamp (r1.entry y x), u8clamp (r2.entry y x))⟩
          512) := by
  obtain ⟨bits, hb, hlen, hne⟩ := text_to_bits_ok text ht
  have hwroi : (cropTopLeft img 512).width = 512 := by
    simp only [cropTopLeft]
    omega
  have hhroi : (cropTopLeft img 512).height = 512 := by
    simp only [cropTopLeft]
    omega
  obtain ⟨r0, r1, r2, hroi⟩ := embed_bits_ok sqrt2 B (cropTopLeft img 512) bits
    (by rw [hwroi]) (by rw [hhroi]) (by rw [hwroi, hhroi]; omega) hne
  have hcore : embed_raw_text_core sqrt2 B (cropTopLeft img 512) text s
      = .ok ⟨(cropTopLeft img 512).width, (cropTopLeft img 512).height, fun x y =>
          (u8clamp (r0.entry y x), u8clamp (r1.entry y x), u8clamp (r2.entry y x))⟩ := by
    unfold embed_raw_text_core
    rw [if_neg hs, hb]
    exact hroi
  refine ⟨r0, r1, r2, ?_⟩
  unfold embed_raw_text
  rw [if_neg hs, if_pos ⟨rfl, hw, hh⟩, hcore]

/-- C7: the image embedder validates strength but ignores it: a strength
outside `[0.1, 1.0]` makes `embed` and `embed_raw_text` fail with the
invalid-configuration error (and, being pure functions, they have no other
effect), while any two strengths inside the range produce identical outputs
for the same image and watermark text. -/
theorem strength_validated_but_ignored (sqrt2 : α) (B : (ℕ → α) → ℕ → ℕ → ℕ → α)
    (img : RgbImage) (text : List Char) (fast : Bool) :
    (∀ s : ℚ, s < 1/10 ∨ 1 < s →
      embed sqrt2 B img text s = .error (.invalidStrength s)
      ∧ embed_raw_text sqrt2 B img text s fast = .error (.invalidStrength s))
    ∧ (∀ s1 s2 : ℚ, 1/10 ≤ s1 → s1 ≤ 1 → 1/10 ≤ s2 → s2 ≤ 1 →
      embed sqrt2 B img text s1 = embed sqrt2 B img text s2
      ∧ embed_raw_text sqrt2 B img text s1 fast
          = embed_raw_text sqrt2 B img text s2 fast) := by
  constructor
  · intro s hsbad
    constructor
    · unfold embed; rw [if_pos hsbad]
    · unfold embed_raw_text; rw [if_pos hsbad]
  · intro s1 s2 h11 h12 h21 h22
    have hc1 : ¬ (s1 < 1/10 ∨ 1 < s1) := by push_neg; exact ⟨h11, h12⟩
    have hc2 : ¬ (s2 < 1/10 ∨ 1 < s2) := by push_neg; exact ⟨h21, h22⟩
    constructor
    · unfold embed; rw [if_neg hc1, if_neg hc2]
    · have hcore : embed_raw_text_core sqrt2 B (cropTopLeft img 512) text s1
          = embed_raw_text_core sqrt2 B (cropTopLeft img 512) text s2 := by
        unfold embed_raw_text_core; rw [if_neg hc1, if_neg hc2]
      unfold embed_raw_text
      rw [if_neg hc1, if_neg hc2, hcore]

/-- Witness for C7: the two in-range strengths `0.5` and `1` on a concrete
2×2 image. -/
theorem strength_validated_but_ignored_witness :
    ((1 : ℚ)/10 ≤ 1/2 ∧ (1/2 : ℚ) ≤ 1 ∧ (1 : ℚ)/10 ≤ 1 ∧ (1 : ℚ) ≤ 1)
    ∧ embed (α := ℚ) 1 (fun blk _ _ => blk) ⟨2, 2, fun _ _ => (0, 0, 0)⟩
        "t".data (1/2)
      = embed (α := ℚ) 1 (fun blk _ _ => blk) ⟨2, 2, fun _ _ => (0, 0, 0)⟩
        "t".data 1 :=
  ⟨⟨by norm_num, by norm_num, by norm_num, le_refl 1⟩,
    ((strength_validated_but_ignored (α := ℚ) 1 (fun blk _ _ => blk)
        ⟨2, 2, fun _ _ => (0, 0, 0)⟩ "t".data false).2 (1/2) 1
      (by norm_num) (by norm_num) (by norm_num) (le_refl 1)).1⟩

/-- C5 counterexample: the claim as stated fails twice on the code.  A
513×513 image (both dimensions odd) is embedded *successfully* by
`embed_raw_text` in fast mode, because only the even 512×512 ROI is
processed; and `try_extract_text` on a 3×3 image returns `Ok(None)` instead
of reporting the dimension failure to the caller. -/
theorem odd_dims_counterexample :
    (embed_raw_text (α := ℚ) 1 (fun blk _ _ => blk)
        ⟨513, 513, fun _ _ => (0, 0, 0)⟩ "t".data (1/2) true).isOk = true
    ∧ try_extract_text (α := ℚ) 1 (fun _ _ => 0) ⟨3, 3, fun _ _ => (0, 0, 0)⟩
        = .ok none := by
  constructor
  · obtain ⟨r0, r1, r2, hout⟩ := embed_raw_text_fast_spec (α := ℚ) 1
      (fun blk _ _ => blk) ⟨513, 513, fun _ _ => (0, 0, 0)⟩ "t".data (1/2)
      (by norm_num) (by decide) (by decide) (by decide)
    rw [hout]
    rfl
  · rfl

/-- C5 (amended): for an image with an odd dimension and an in-range
strength: `embed` fails with the dimension error; `embed_raw_text` without
fast mode (text within 64 bytes) fails with the dimension error; in fast
mode with both dimensions above 512 the call *succeeds* (only the even
512×512 ROI is processed); `extract` fails with the dimension error;
`try_extract_text` swallows the failure and returns `Ok(None)`; and
`extract_text` therefore reports the not-found error, not the dimension
error. -/
theorem odd_dims_behavior (sqrt2 : α) (B : (ℕ → α) → ℕ → ℕ → ℕ → α)
    (Bx : (ℕ → α) → ℕ → α) (img : RgbImage) (text : List Char) (s : ℚ)
    (hodd : img.width % 2 ≠ 0 ∨ img.height % 2 ≠ 0)
    (hs : ¬ (s < 1/10 ∨ 1 < s)) :
    embed sqrt2 B img text s = .error (.dimensionOdd img.width img.height)
    ∧ ((utf8Bytes text).length ≤ 64 →
        embed_raw_text sqrt2 B img text s false
          = .error (.dimensionOdd img.width img.height))
    ∧ ((utf8Bytes text).length ≤ 64 → 512 < img.width → 512 < img.height →
        (embed_raw_text sqrt2 B img text s true).isOk = true)
    ∧ extract sqrt2 Bx img = .error (.dimensionOdd img.width img.height)
    ∧ try_extract_text sqrt2 Bx img = .ok none
    ∧ extract_text sqrt2 Bx img = .error .extractionNotFound := by
  have hsum : ∀ n, extract_soft_sum sqrt2 Bx img n
      = .error (.dimensionOdd img.width img.height) := by
    intro n
    unfold extract_soft_sum
    rw [if_pos hodd]
  have htry : try_extract_text sqrt2 Bx img = .ok none := by
    unfold try_extract_text
    rw [hsum 544]
  refine ⟨?_, ?_, ?_, ?_, htry, ?_⟩
  · unfold embed
    rw [if_neg hs]
    unfold embed_bits
    rw [if_pos hodd]
  · intro ht
    obtain ⟨bits, hb, _, _⟩ := text_to_bits_ok text ht
    unfold embed_raw_text
    rw [if_neg hs, if_neg (by simp), hb]
    show embed_bits sqrt2 B img bits = _
    unfold embed_bits
    rw [if_pos hodd]
  · intro ht hw hh
    obtain ⟨r0, r1, r2, hout⟩ := embed_raw_text_fast_spec sqrt2 B img text s hs ht hw hh
    rw [hout]
    rfl
  · unfold extract
    rw [hsum 128]
  · unfold extract_text
    rw [htry]

/-- Witness for the C5 amended theorem at a concrete 513×513 image and
strength `0.5`. -/
theorem odd_dims_behavior_witness :
    ((513 % 2 ≠ 0 ∨ 513 % 2 ≠ 0) ∧ ¬ ((1/2 : ℚ) < 1/10 ∨ 1 < (1/2 : ℚ))) ∧
      embed (α := ℚ) 1 (fun blk _ _ => blk) ⟨513, 513, fun _ _ => (0, 0, 0)⟩
        "t".data (1/2) = .error (.dimensionOdd 513 513) :=
  ⟨⟨by decide, by norm_num⟩,
    (odd_dims_behavior (α := ℚ) 1 (fun blk _ _ => blk) (fun _ _ => 0)
      ⟨513, 513, fun _ _ => (0, 0, 0)⟩ "t".data (1/2)
      (by decide) (by norm_num)).1⟩

/-- C10: whenever embedding succeeds on an even-dimensioned image (`embed`,
`embed_raw_text`, and the fast-mode ROI path), the output image has exactly
the input's width and height and every pixel channel is `u8clamp` of a
reconstructed channel value — an integer in `[0, 255]`; on the fast path the
pixels outside the 512×512 ROI are the input's own 8-bit pixels, also in
`[0, 255]`. -/
theorem embed_output_frame (sqrt2 : α) (B : (ℕ → α) → ℕ → ℕ → ℕ → α)
    (img : RgbImage) (text : List Char) (s : ℚ)
    (hs : ¬ (s < 1/10 ∨ 1 < s)) (hvalid : img.Valid) :
    (img.width % 2 = 0 → img.height % 2 = 0 →
      128 ≤ img.height / 2 / 4 * (img.width / 2 / 4) →
      ∃ out, embed sqrt2 B img text s = .ok out
        ∧ out.width = img.width ∧ out.height = img.height
        ∧ (∀ x y, ∃ a b c : α, out.pix x y = (u8clamp a, u8clamp b, u8clamp c))
        ∧ ∀ x y, (out.pix x y).1 ≤ 255 ∧ (out.pix x y).2.1 ≤ 255
            ∧ (out.pix x y).2.2 ≤ 255)
    ∧ (img.width % 2 = 0 → img.height % 2 = 0 → (utf8Bytes text).length ≤ 64 →
      544 ≤ img.height / 2 / 4 * (img.width / 2 / 4) →
      ∃ out, embed_raw_text sqrt2 B img text s false = .ok out
        ∧ out.width = img.width ∧ out.height = img.height
        ∧ (∀ x y, ∃ a b c : α, out.pix x y = (u8clamp a, u8clamp b, u8clamp c))
        ∧ ∀ x y, (out.pix x y).1 ≤ 255 ∧ (out.pix x y).2.1 ≤ 255
            ∧ (out.pix x y).2.2 ≤ 255)
    ∧ ((utf8Bytes text).length ≤ 64 → 512 < img.width → 512 < img.height →
      ∃ out, embed_raw_text sqrt2 B img text s true = .ok out
        ∧ out.width = img.width ∧ out.height = img.height
        ∧ (∀ x y, x < 512 → y < 512 →
            ∃ a b c : α, out.pix x y = (u8clamp a, u8clamp b, u8clamp c))
        ∧ ∀ x y, (out.pix x y).1 ≤ 255 ∧ (out.pix x y).2.1 ≤ 255
            ∧ (out.pix x y).2.2 ≤ 255) := by
  refine ⟨?_, ?_, ?_⟩
  · intro hw hh hcap
    obtain ⟨r0, r1, r2, hbits⟩ := embed_bits_ok sqrt2 B img
      (encode_binary_sequence text) hw hh
      (by rw [encode_binary_sequence_length]; exact hcap)
      (encode_binary_sequence_ne_nil text)
    refine ⟨⟨img.width, img.height, fun x y =>
      (u8clamp (r0.entry y x), u8clamp (r1.entry y x), u8clamp (r2.entry y x))⟩,
      ?_, rfl, rfl, ?_, ?_⟩
    · unfold embed
      rw [if_neg hs]
      exact hbits
    · intro x y
      exact ⟨_, _, _, rfl⟩
    · intro x y
      exact ⟨u8clamp_le _, u8clamp_le _, u8clamp_le _⟩
  · intro hw hh ht hcap
    obtain ⟨bits, hb, hlen, hne⟩ := text_to_bits_ok text ht
    obtain ⟨r0, r1, r2, hbits⟩ := embed_bits_ok sqrt2 B img bits hw hh
      (by omega) hne
    refine ⟨⟨img.width, img.height, fun x y =>
      (u8clamp (r0.entry y x), u8clamp (r1.entry y x), u8clamp (r2.entry y x))⟩,
      ?_, rfl, rfl, ?_, ?_⟩
    · unfold embed_raw_text
      rw [if_neg hs, if_neg (by simp), hb]
      exact hbits
    · intro x y
      exact ⟨_, _, _, rfl⟩
    · intro x y
      exact ⟨u8clamp_le _, u8clamp_le _, u8clamp_le _⟩
  · intro ht hw hh
    obtain ⟨r0, r1, r2, hout⟩ := embed_raw_text_fast_spec sqrt2 B img text s hs ht hw hh
    refine ⟨_, hout, rfl, rfl, ?_, ?_⟩
    · intro x y hx hy
      refine ⟨r0.entry y x, r1.entry y x, r2.entry y x, ?_⟩
      simp only [pasteTopLeft]
      rw [if_pos ⟨hx, hy⟩]
    · intro x y
      simp only [pasteTopLeft]
      by_cases hxy : x < 512 ∧ y < 512
      · rw [if_pos hxy]
        exact ⟨u8clamp_le _, u8clamp_le _, u8clamp_le _⟩
      · rw [if_neg hxy]
        obtain ⟨hv1, hv2, hv3⟩ := hvalid x y
        exact ⟨by omega, by omega, by omega⟩

/-- Witness for C10 at a constant 128×128 image (256 blocks ≥ 128 bits) and
strength `0.5`. -/
theorem embed_output_frame_witness :
    (¬ ((1/2 : ℚ) < 1/10 ∨ 1 < (1/2 : ℚ)))
    ∧ ((128 : ℕ) % 2 = 0 ∧ (128 : ℕ) ≤ 128 / 2 / 4 * (128 / 2 / 4))
    ∧ ∃ out, embed (α := ℚ) 1 (fun blk _ _ => blk)
        ⟨128, 128, fun _ _ => (7, 7, 7)⟩ "t".data (1/2) = .ok out
        ∧ out.width = 128 ∧ out.height = 128
        ∧ (∀ x y, ∃ a b c : ℚ, out.pix x y = (u8clamp a, u8clamp b, u8clamp c))
        ∧ ∀ x y, (out.pix x y).1 ≤ 255 ∧ (out.pix x y).2.1 ≤ 255
            ∧ (out.pix x y).2.2 ≤ 255 :=
  ⟨by norm_num, ⟨by decide, by decide⟩,
    (embed_output_frame (α := ℚ) 1 (fun blk _ _ => blk)
      ⟨128, 128, fun _ _ => (7, 7, 7)⟩ "t".data (1/2) (by norm_num)
      (fun _ _ => ⟨by norm_num, by norm_num, by norm_num⟩)).1
      (by decide) (by decide) (by decide)⟩

end PipelineLemmas

/-! ## Obfuscated injection (json_marker.rs:97–144 and 282–336)

`make_disguised_key` consumes the thread RNG three ways: a Fisher–Yates
shuffle of the base-key indices, a Fisher–Yates shuffle of the six suffixes
per base, and a random start offset into the fallback pool;
`embed_obfuscated` adds one draw for the insert position.  The model passes
each consumed random choice in explicitly, and the theorems quantify over
every outcome — `baseOrder` ranges over all permutations of the index list
and each `sufOrders i` over all permutations of the suffix pool, which is
exactly the set of outcomes a Fisher–Yates shuffle can produce.

Rust's `char::is_lowercase` is Unicode-aware where Lean's `Char.isLower` is
ASCII; the two agree on every character the proofs reason about (ASCII
letters and `_`), and no theorem below depends on the classification of any
other character. -/

/-- The neutral suffix pool (json_marker.rs:99). -/
def SUFFIXES : List (List Char) :=
  ["Hash".data, "Id".data, "Code".data, "Key".data, "Sig".data, "Ref".data]

/-- The generic fallback pool (json_marker.rs:131–134). -/
def FALLBACK_POOL : List (List Char) :=
  ["checksum".data, "contentHash".data, "packageId".data, "creatorId".data,
   "assetId".data, "buildVersion".data, "versionTag".data, "releaseId".data,
   "fileHash".data, "dataHash".data]

/-- `DEFAULT_WATERMARK_KEY` (json_marker.rs:20). -/
def DEFAULT_WATERMARK_KEY : List Char := "_watermark".data

/-- The leading lowercase run of a key
(`base_key.chars().take_while(|c| c.is_lowercase())`, json_marker.rs:112). -/
def lowerPrefix (k : List Char) : List Char := k.takeWhile Char.isLower

/-- The candidate base prefix (json_marker.rs:113): the lowercase run when
it has at least 3 characters, else the whole base key. -/
def prefixChoice (k : List Char) : List Char :=
  if 3 ≤ (lowerPrefix k).length then lowerPrefix k else k

/-- The inner suffix loop (json_marker.rs:121–126): first candidate
`prefix ++ suffix` not already a key. -/
def trySuffixes (existing : List (List Char)) (pre : List Char) :
    List (List Char) → Option (List Char)
  | [] => none
  | suf :: rest =>
    if pre ++ suf ∈ existing then trySuffixes existing pre rest
    else some (pre ++ suf)

/-- The outer base loop (json_marker.rs:109–127), iterating the shuffled
index order. -/
def tryBases (existing : List (List Char)) (sufOrders : ℕ → List (List Char)) :
    List ℕ → Option (List Char × List Char)
  | [] => none
  | bi :: rest =>
    match trySuffixes existing (prefixChoice (existing.getD bi [])) (sufOrders bi) with
    | some cand => some (cand, existing.getD bi [])
    | none => tryBases existing sufOrders rest

/-- The fallback-pool loop (json_marker.rs:135–141): starting at a random
offset, first pool name not already a key. -/
def poolPick (existing : List (List Char)) (start : ℕ) : Option (List Char) :=
  (List.range FALLBACK_POOL.length).findSome? (fun i =>
    let k := FALLBACK_POOL.getD ((start + i) % FALLBACK_POOL.length) []
    if k ∈ existing then none else some k)

/-- `make_disguised_key` (json_marker.rs:97–144): returns the disguised key
and, when one was derived from an existing base key, that base key (the
insertion-position hint). -/
def make_disguised_key (existing : List (List Char)) (baseOrder : List ℕ)
    (sufOrders : ℕ → List (List Char)) (poolStart : ℕ) :
    List Char × Option (List Char) :=
  match tryBases existing sufOrders baseOrder with
  | some (cand, base) => (cand, some base)
  | none =>
    match poolPick existing poolStart with
    | some k => (k, none)
    | none => (DEFAULT_WATERMARK_KEY, none)

/-- `v.as_str().map(is_watermark_value).unwrap_or(false)`
(json_marker.rs:304). -/
def watermarkShapedValue (v : JValue) : Bool :=
  match v.asStr with
  | some s => is_watermark_value s
  | none => false

/-- `IndexMap::insert`: replace the value in place when the key exists,
else append. -/
def indexMapInsert (m : List (List Char × JValue)) (k : List Char) (v : JValue) :
    List (List Char × JValue) :=
  if m.any (fun e => e.1 == k) then m.map (fun e => if e.1 == k then (k, v) else e)
  else m ++ [(k, v)]

/-- The rebuild loop of `embed_obfuscated` (json_marker.rs:320–328): walk
the clean entries with their index, inserting the disguised entry just
before the entry at `pos`. -/
def buildGo (dk : List Char) (v : JValue) (pos : ℕ) :
    ℕ → List (List Char × JValue) → List (List Char × JValue) →
      List (List Char × JValue)
  | _, acc, [] => acc
  | i, acc, e :: rest =>
    buildGo dk v pos (i + 1)
      (indexMapInsert (if i = pos then indexMapInsert acc dk v else acc) e.1 e.2) rest

/-- The rebuild including the trailing `if !inserted` insert
(json_marker.rs:329–331); the loop sets `inserted` exactly when
`pos < clean.length`. -/
def buildNewMap (dk : List Char) (v : JValue) (pos : ℕ)
    (clean : List (List Char × JValue)) : List (List Char × JValue) :=
  if pos < clean.length then buildGo dk v pos 0 [] clean
  else indexMapInsert (buildGo dk v pos 0 [] clean) dk v

/-- `JsonWatermarker::embed_obfuscated` (json_marker.rs:282–336).  The
parsed root is the `content` argument; a non-object root is returned
unchanged (modulo pretty-printing, which the model does not track).
`posDraw` is the `gen_range(1..n)` draw for the fallback insert position. -/
def embed_obfuscated (O : AesOracle) (nonce : List ℕ) (root : JValue)
    (text mode : List Char) (aesKey : Option (List Char)) (baseOrder : List ℕ)
    (sufOrders : ℕ → List (List Char)) (poolStart posDraw : ℕ) :
    Except BMError JValue :=
  match root with
  | .obj map =>
    match encode_watermark O nonce text mode aesKey with
    | .error e => .error e
    | .ok enc =>
      let clean := map.filter (fun e => !watermarkShapedValue e.2)
      let dkb := make_disguised_key (clean.map Prod.fst) baseOrder sufOrders poolStart
      let pos := match dkb.2 with
        | some bk =>
          match (clean.map Prod.fst).indexOf? bk with
          | some p => p + 1
          | none =>
            if clean.length ≤ 2 then clean.length - 1
            else 1 + posDraw % (clean.length - 1)
        | none =>
          if clean.length ≤ 2 then clean.length - 1
          else 1 + posDraw % (clean.length - 1)
      .ok (.obj (buildNewMap dkb.1 (.str enc) pos clean))
  | other => .ok other

theorem trySuffixes_fresh {existing : List (List Char)} {pre : List Char}
    {l : List (List Char)} {c : List Char}
    (h : trySuffixes existing pre l = some c) : c ∉ existing := by
  induction l with
  | nil => cases h
  | cons suf rest ih =>
    unfold trySuffixes at h
    split at h
    · exact ih h
    · cases h
      assumption

theorem trySuffixes_exhausted {existing : List (List Char)} {pre : List Char}
    {l : List (List Char)} (h : trySuffixes existing pre l = none) :
    ∀ suf ∈ l, pre ++ suf ∈ existing := by
  induction l with
  | nil => intro suf hsuf; cases hsuf
  | cons s rest ih =>
    unfold trySuffixes at h
    split at h
    · intro suf hsuf
      rcases List.mem_cons.mp hsuf with rfl | hsuf
      · assumption
      · exact ih h suf hsuf
    · cases h

theorem tryBases_fresh {existing : List (List Char)}
    {sufOrders : ℕ → List (List Char)} {bo : List ℕ} {cand base : List Char}
    (h : tryBases existing sufOrders bo = some (cand, base)) : cand ∉ existing := by
  induction bo with
  | nil => cases h
  | cons bi rest ih =>
    unfold tryBases at h
    split at h
    · rename_i c hsome
      cases h
      exact trySuffixes_fresh hsome
    · exact ih h

theorem tryBases_exhausted {existing : List (List Char)}
    {sufOrders : ℕ → List (List Char)} {bo : List ℕ}
    (h : tryBases existing sufOrders bo = none) :
    ∀ bi ∈ bo,
      trySuffixes existing (prefixChoice (existing.getD bi [])) (sufOrders bi) = none := by
  induction bo with
  | nil => intro bi hbi; cases hbi
  | cons b rest ih =>
    unfold tryBases at h
    split at h
    · cases h
    · intro bi hbi
      rcases List.mem_cons.mp hbi with rfl | hbi
      · assumption
      · exact ih h bi hbi

theorem poolPick_fresh {existing : List (List Char)} {start : ℕ} {k : List Char}
    (h : poolPick existing start = some k) : k ∉ existing := by
  unfold poolPick at h
  obtain ⟨i, _, hi⟩ := List.exists_of_findSome?_eq_some h
  dsimp only at hi
  split at hi
  · cases hi
  · cases hi
    assumption

theorem takeWhile_append_all {p : Char → Bool} {l₁ : List Char} (l₂ : List Char)
    (h : ∀ x ∈ l₁, p x = true) :
    (l₁ ++ l₂).takeWhile p = l₁ ++ l₂.takeWhile p := by
  induction l₁ with
  | nil => simp
  | cons a t ih =>
    rw [List.cons_append, List.takeWhile_cons, if_pos (h a (List.mem_cons_self a t)),
      ih (fun x hx => h x (List.mem_cons_of_mem a hx)), List.cons_append]

theorem takeWhile_append_stop {p : Char → Bool} {l₁ : List Char} (l₂ : List Char)
    (h : l₁.takeWhile p ≠ l₁) :
    (l₁ ++ l₂).takeWhile p = l₁.takeWhile p := by
  induction l₁ with
  | nil => exact absurd rfl h
  | cons a t ih =>
    rw [List.cons_append, List.takeWhile_cons, List.takeWhile_cons]
    rw [List.takeWhile_cons] at h
    by_cases hpa : p a = true
    · rw [if_pos hpa, if_pos hpa]
      rw [if_pos hpa] at h
      have ht : List.takeWhile p t ≠ t := fun he => h (by rw [he])
      rw [ih ht]
    · rw [if_neg hpa, if_neg hpa]

/-- The exhaustion argument: if for every existing key all six suffixed
candidates built on its prefix choice are again existing keys, then every
existing key starts with a lowercase run of length at least 3.  (A key with
a shorter run of maximal length would produce the strictly longer key
`key ++ "Hash"` with an equally short run — impossible in a finite set.) -/
theorem exhausted_all_long_prefix (existing : List (List Char))
    (hex : ∀ k ∈ existing, ∀ suf ∈ SUFFIXES, prefixChoice k ++ suf ∈ existing) :
    ∀ k ∈ existing, 3 ≤ (lowerPrefix k).length := by
  by_contra hcon
  push_neg at hcon
  obtain ⟨k0, hk0, hk0len⟩ := hcon
  have hk0S : k0 ∈ existing.filter (fun k => decide ((lowerPrefix k).length < 3)) :=
    List.mem_filter.mpr ⟨hk0, by simpa using hk0len⟩
  obtain ⟨m, hm⟩ : ∃ m, m ∈ List.argmax List.length
      (existing.filter (fun k => decide ((lowerPrefix k).length < 3))) := by
    cases harg : List.argmax List.length
        (existing.filter (fun k => decide ((lowerPrefix k).length < 3))) with
    | none =>
      rw [List.argmax_eq_none] at harg
      rw [harg] at hk0S
      cases hk0S
    | some m => exact ⟨m, by rw [Option.mem_def]⟩
  have hmS := List.argmax_mem hm
  have hmex : m ∈ existing := (List.mem_filter.mp hmS).1
  have hmlen : (lowerPrefix m).length < 3 := by
    have := (List.mem_filter.mp hmS).2
    simpa using this
  have hHash : "Hash".data ∈ SUFFIXES := by simp [SUFFIXES]
  have hpc : prefixChoice m = m := by
    unfold prefixChoice
    rw [if_neg (by omega)]
  have hmem : m ++ "Hash".data ∈ existing := by
    have := hex m hmex "Hash".data hHash
    rwa [hpc] at this
  have hshort : (lowerPrefix (m ++ "Hash".data)).length < 3 := by
    unfold lowerPrefix at hmlen ⊢
    by_cases hall : m.takeWhile Char.isLower = m
    · rw [takeWhile_append_all _ (List.takeWhile_eq_self_iff.mp hall),
        show "Hash".data.takeWhile Char.isLower = [] from rfl]
      rw [hall] at hmlen
      simpa using hmlen
    · rw [takeWhile_append_stop _ hall]
      exact hmlen
  have hmemS : m ++ "Hash".data
      ∈ existing.filter (fun k => decide ((lowerPrefix k).length < 3)) :=
    List.mem_filter.mpr ⟨hmem, by simpa using hshort⟩
  have hle := List.le_of_mem_argmax hmemS hm
  have hle4 : m.length + 4 ≤ m.length := by
    have h4 : ("Hash".data).length = 4 := rfl
    calc m.length + 4 = (m ++ "Hash".data).length := by rw [List.length_append, h4]
    _ ≤ m.length := hle
  omega

/-- The disguised key never collides with an existing key: the first two
branches of `make_disguised_key` check membership explicitly, and the final
`"_watermark"` fallback requires every base to be exhausted, which by
`exhausted_all_long_prefix` forces every key to start with three lowercase
characters — which `"_watermark"` does not. -/
theorem make_disguised_key_fresh (existing : List (List Char)) (baseOrder : List ℕ)
    (sufOrders : ℕ → List (List Char)) (poolStart : ℕ)
    (hbo : ∀ i ∈ List.range existing.length, i ∈ baseOrder)
    (hso : ∀ i, ∀ suf ∈ SUFFIXES, suf ∈ sufOrders i) :
    (make_disguised_key existing baseOrder sufOrders poolStart).1 ∉ existing := by
  unfold make_disguised_key
  cases htb : tryBases existing sufOrders baseOrder with
  | some cb =>
    obtain ⟨cand, base⟩ := cb
    simpa using tryBases_fresh htb
  | none =>
    cases hpp : poolPick existing poolStart with
    | some k => simpa using poolPick_fresh hpp
    | none =>
      intro hmem
      have hex : ∀ k ∈ existing, ∀ suf ∈ SUFFIXES, prefixChoice k ++ suf ∈ existing := by
        intro k hk suf hsuf
        obtain ⟨⟨i, hilt⟩, hi⟩ := List.mem_iff_get.mp hk
        have hibo : i ∈ baseOrder := hbo i (List.mem_range.mpr hilt)
        have hnone := tryBases_exhausted htb i hibo
        have hgd : existing.getD i [] = k := by
          rw [List.getD_eq_getElem _ _ hilt]
          rw [← hi]
          rfl
        rw [hgd] at hnone
        exact trySuffixes_exhausted hnone suf (hso i suf hsuf)
      have hlong := exhausted_all_long_prefix existing hex DEFAULT_WATERMARK_KEY hmem
      have : (lowerPrefix DEFAULT_WATERMARK_KEY).length = 0 := rfl
      omega

theorem indexOf?_lt_length {a : List Char} {l : List (List Char)} {p : ℕ}
    (h : l.indexOf? a = some p) : p < l.length := by
  induction l generalizing p with
  | nil => rw [List.indexOf?_nil] at h; cases h
  | cons x xs ih =>
    rw [List.indexOf?_cons] at h
    split at h
    · cases h
      simp
    · obtain ⟨q, hq, hpq⟩ := Option.map_eq_some'.mp h
      rw [← hpq]
      simpa using Nat.succ_lt_succ (ih hq)

theorem indexMapInsert_fresh (m : List (List Char × JValue)) (k : List Char) (v : JValue)
    (h : k ∉ m.map Prod.fst) : indexMapInsert m k v = m ++ [(k, v)] := by
  unfold indexMapInsert
  rw [if_neg]
  intro hany
  rw [List.any_eq_true] at hany
  obtain ⟨e, he, hbeq⟩ := hany
  exact h (List.mem_map.mpr ⟨e, he, by simpa using hbeq⟩)

/-- Once the loop index has passed the insertion position, the rebuild loop
just re-inserts the remaining fresh entries in order. -/
theorem buildGo_after (dk : List Char) (v : JValue) (pos : ℕ) :
    ∀ (rest : List (List Char × JValue)) (i : ℕ) (acc : List (List Char × JValue)),
      pos < i → (rest.map Prod.fst).Nodup →
      (∀ e ∈ rest, e.1 ∉ acc.map Prod.fst) →
      buildGo dk v pos i acc rest = acc ++ rest := by
  intro rest
  induction rest with
  | nil =>
    intro i acc _ _ _
    simp [buildGo]
  | cons e rest ih =>
    intro i acc hpi hnd hfresh
    rw [List.map_cons, List.nodup_cons] at hnd
    have heq : buildGo dk v pos i acc (e :: rest)
        = buildGo dk v pos (i + 1)
            (indexMapInsert (if i = pos then indexMapInsert acc dk v else acc) e.1 e.2)
            rest := rfl
    rw [heq, if_neg (by omega)]
    rw [indexMapInsert_fresh acc e.1 e.2 (hfresh e (List.mem_cons_self e rest))]
    have hfr : ∀ e2 ∈ rest, e2.1 ∉ (acc ++ [(e.1, e.2)]).map Prod.fst := by
      intro e2 he2
      rw [List.map_append]
      intro hmem
      rcases List.mem_append.mp hmem with hmem | hmem
      · exact hfresh e2 (List.mem_cons_of_mem e he2) hmem
      · simp only [List.map_cons, List.map_nil, List.mem_singleton] at hmem
        exact hnd.1 (List.mem_map.mpr ⟨e2, he2, hmem⟩)
    rw [ih (i + 1) (acc ++ [(e.1, e.2)]) (by omega) hnd.2 hfr]
    simp [List.append_assoc]

/-- Characterisation of the rebuild loop while the index is at most the
insertion position: it appends the remaining entries with the disguised
entry inserted at offset pos - i (or at the end when pos is out of range). -/
theorem buildGo_spec (dk : List Char) (v : JValue) (pos : ℕ) :
    ∀ (rest : List (List Char × JValue)) (i : ℕ) (acc : List (List Char × JValue)),
      i ≤ pos → (rest.map Prod.fst).Nodup →
      (∀ e ∈ rest, e.1 ∉ acc.map Prod.fst) →
      dk ∉ acc.map Prod.fst → dk ∉ rest.map Prod.fst →
      buildGo dk v pos i acc rest
        = if pos - i < rest.length then acc ++ rest.insertIdx (pos - i) (dk, v)
          else acc ++ rest := by
  intro rest
  induction rest with
  | nil =>
    intro i acc _ _ _ _ _
    rw [if_neg (by simp)]
    simp [buildGo]
  | cons e rest ih =>
    intro i acc hip hnd hfresh hdkacc hdkrest
    rw [List.map_cons, List.nodup_cons] at hnd
    rw [List.map_cons] at hdkrest
    have hdke : dk ≠ e.1 := fun hc => hdkrest (by rw [hc]; exact List.mem_cons_self _ _)
    have hdkrest2 : dk ∉ rest.map Prod.fst := fun hc => hdkrest (List.mem_cons_of_mem _ hc)
    have heq : buildGo dk v pos i acc (e :: rest)
        = buildGo dk v pos (i + 1)
            (indexMapInsert (if i = pos then indexMapInsert acc dk v else acc) e.1 e.2)
            rest := rfl
    by_cases hipe : i = pos
    · subst hipe
      rw [heq, if_pos rfl]
      rw [indexMapInsert_fresh acc dk v hdkacc]
      have hefresh : e.1 ∉ (acc ++ [(dk, v)]).map Prod.fst := by
        rw [List.map_append]
        intro hmem
        rcases List.mem_append.mp hmem with hmem | hmem
        · exact hfresh e (List.mem_cons_self e rest) hmem
        · simp only [List.map_cons, List.map_nil, List.mem_singleton] at hmem
          exact hdke hmem.symm
      rw [indexMapInsert_fresh _ e.1 e.2 hefresh]
      have hfr2 : ∀ e2 ∈ rest, e2.1 ∉ ((acc ++ [(dk, v)]) ++ [(e.1, e.2)]).map Prod.fst := by
        intro e2 he2
        rw [List.map_append, List.map_append]
        intro hmem
        rcases List.mem_append.mp hmem with hmem | hmem
        · rcases List.mem_append.mp hmem with hmem | hmem
          · exact hfresh e2 (List.mem_cons_of_mem e he2) hmem
          · simp only [List.map_cons, List.map_nil, List.mem_singleton] at hmem
            exact hdkrest2 (List.mem_map.mpr ⟨e2, he2, hmem⟩)
        · simp only [List.map_cons, List.map_nil, List.mem_singleton] at hmem
          exact hnd.1 (List.mem_map.mpr ⟨e2, he2, hmem⟩)
      rw [buildGo_after dk v i rest (i + 1) _ (by omega) hnd.2 hfr2]
      rw [Nat.sub_self, if_pos (by simp), List.insertIdx_zero]
      simp [List.append_assoc]
    · have hlt : i < pos := lt_of_le_of_ne hip hipe
      rw [heq, if_neg hipe]
      rw [indexMapInsert_fresh acc e.1 e.2 (hfresh e (List.mem_cons_self e rest))]
      have hfr : ∀ e2 ∈ rest, e2.1 ∉ (acc ++ [(e.1, e.2)]).map Prod.fst := by
        intro e2 he2
        rw [List.map_append]
        intro hmem
        rcases List.mem_append.mp hmem with hmem | hmem
        · exact hfresh e2 (List.mem_cons_of_mem e he2) hmem
        · simp only [List.map_cons, List.map_nil, List.mem_singleton] at hmem
          exact hnd.1 (List.mem_map.mpr ⟨e2, he2, hmem⟩)
      have hdkacc2 : dk ∉ (acc ++ [(e.1, e.2)]).map Prod.fst := by
        rw [List.map_append]
        intro hmem
        rcases List.mem_append.mp hmem with hmem | hmem
        · exact hdkacc hmem
        · simp only [List.map_cons, List.map_nil, List.mem_singleton] at hmem
          exact hdke hmem
      rw [ih (i + 1) (acc ++ [(e.1, e.2)]) (by omega) hnd.2 hfr hdkacc2 hdkrest2]
      have hsucc : pos - i = (pos - (i + 1)) + 1 := by omega
      by_cases hlen : pos - (i + 1) < rest.length
      · rw [if_pos hlen, if_pos (by simp only [List.length_cons]; omega)]
        rw [hsucc, List.insertIdx_succ_cons]
        simp [List.append_assoc]
      · rw [if_neg hlen, if_neg (by simp only [List.length_cons]; omega)]
        simp [List.append_assoc]

/-- `buildNewMap` with a fresh disguised key and an in-range position is
plain insertion at that position. -/
theorem buildNewMap_eq (dk : List Char) (v : JValue) (pos : ℕ)
    (clean : List (List Char × JValue)) (hnd : (clean.map Prod.fst).Nodup)
    (hdk : dk ∉ clean.map Prod.fst) (hpos : pos ≤ clean.length) :
    buildNewMap dk v pos clean = clean.insertIdx pos (dk, v) := by
  unfold buildNewMap
  have hspec := buildGo_spec dk v pos clean 0 [] (Nat.zero_le _) hnd
      (by intro e _ hm; simp at hm) (by intro hm; simp at hm) hdk
  rw [Nat.sub_zero] at hspec
  by_cases h : pos < clean.length
  · rw [if_pos h, hspec, if_pos h, List.nil_append]
  · have hpe : pos = clean.length := le_antisymm hpos (not_lt.mp h)
    rw [if_neg h, hspec, if_neg h, List.nil_append,
      indexMapInsert_fresh clean dk v hdk, hpe, List.insertIdx_length_self]

/-- Projecting the keys out of an insertion. -/
theorem map_fst_insertIdx (p : List Char × JValue) :
    ∀ (l : List (List Char × JValue)) (n : ℕ), n ≤ l.length →
      (l.insertIdx n p).map Prod.fst = (l.map Prod.fst).insertIdx n p.1 := by
  intro l
  induction l with
  | nil =>
    intro n hn
    have : n = 0 := by simpa using hn
    subst this
    rfl
  | cons e rest ih =>
    intro n hn
    cases n with
    | zero => rw [List.insertIdx_zero, List.insertIdx_zero]; rfl
    | succ m =>
      rw [List.insertIdx_succ_cons, List.map_cons, List.map_cons,
        List.insertIdx_succ_cons, ih m (by simpa using hn)]

/-- C8 evaluated at the failing input (claim right, code wrong): scanning
the object `{"k": "aes:日本"}` with a passphrase does not produce the
recovered finding `(raw, "aes", false)` the claim (and the function's own
doc comment) promises — it panics, because `hex_to_bytes` slices the hex
part `"日本"` at byte index 2, which is not a character boundary. -/
theorem scan_aes_multibyte_hex_panics :
    scan_watermark_values (some (.obj [("k".data, .str "aes:日本".data)]))
        (some "pw".data) trivAes
      = .error .panicked := rfl

theorem bytes_to_hex_length (l : List ℕ) : (bytes_to_hex l).length = 2 * l.length := by
  induction l with
  | nil => rfl
  | cons b t ih =>
    simp only [bytes_to_hex, List.flatMap_cons, List.length_append] at ih ⊢
    simp only [List.length_cons, List.length_nil, List.length_cons]
    omega

theorem hexDigitChar_isHex : ∀ d < 16, isHexLowerChar (hexDigitChar d) = true := by
  decide

theorem bytes_to_hex_chars (l : List ℕ) :
    ∀ c ∈ bytes_to_hex l, isHexLowerChar c = true := by
  intro c hc
  unfold bytes_to_hex at hc
  rw [List.mem_flatMap] at hc
  obtain ⟨b, _, hcb⟩ := hc
  simp only [List.mem_cons, List.mem_singleton, List.not_mem_nil, or_false] at hcb
  rcases hcb with rfl | rfl
  · exact hexDigitChar_isHex _ (by omega)
  · exact hexDigitChar_isHex _ (by omega)

/-- C9: for every mode string other than `"plaintext"` and `"aes"` — not
only the documented `"md5"` — `encode_watermark` silently falls back to MD5
mode and returns the 32-character lowercase-hex MD5 of the watermark text;
its only failing case is mode `"aes"` with no AES key supplied. -/
theorem encode_watermark_md5_fallback (O : AesOracle) (nonce : List ℕ)
    (text : List Char) (mode : List Char) (key : Option (List Char)) :
    (mode ≠ "plaintext".data → mode ≠ "aes".data →
      encode_watermark O nonce text mode key = .ok (encode_md5_hash text)
      ∧ (encode_md5_hash text).length = 32
      ∧ ∀ c ∈ encode_md5_hash text, isHexLowerChar c = true)
    ∧ ((∃ e, encode_watermark O nonce text mode key = .error e)
        ↔ (mode = "aes".data ∧ key = none)) := by
  constructor
  · intro h1 h2
    refine ⟨?_, ?_, bytes_to_hex_chars _⟩
    · unfold encode_watermark
      rw [if_neg h1, if_neg h2]
    · unfold encode_md5_hash
      rw [bytes_to_hex_length,
        show (md5Bytes (utf8Bytes text)).length = 16 by simp [md5Bytes, leBytes4]]
  · constructor
    · rintro ⟨e, he⟩
      unfold encode_watermark at he
      split at he
      · cases he
      · split at he
        · rename_i hmode
          cases hkey : key with
          | none => exact ⟨hmode, rfl⟩
          | some k => rw [hkey] at he; cases he
        · cases he
    · rintro ⟨rfl, rfl⟩
      unfold encode_watermark
      rw [if_neg (by decide), if_pos rfl]
      exact ⟨.aesKeyMissing, rfl⟩

/-- Witness for C9 at the undocumented mode string `"xx"`. -/
theorem encode_watermark_md5_fallback_witness :
    ("xx".data ≠ "plaintext".data ∧ "xx".data ≠ "aes".data)
    ∧ encode_watermark trivAes [] "hi".data "xx".data none
        = .ok (encode_md5_hash "hi".data)
    ∧ (encode_md5_hash "hi".data).length = 32
    ∧ ∀ c ∈ encode_md5_hash "hi".data, isHexLowerChar c = true :=
  ⟨⟨by decide, by decide⟩,
    (encode_watermark_md5_fallback trivAes [] "hi".data "xx".data none).1
      (by decide) (by decide)⟩

/-- Witness for C4 at the one-character text `"a"` (1 UTF-8 byte). -/
theorem text_to_bits_roundtrip_witness :
    (utf8Bytes ['a']).length ≤ 64 ∧
      ∃ bits, text_to_bits ['a'] = .ok bits
        ∧ bits.length = 544
        ∧ bits = byteToBits 0x57 ++ (byteToBits 0x4D
            ++ (u16ToBits (utf8Bytes ['a']).length
              ++ ((utf8Bytes ['a']).flatMap byteToBits
                ++ List.replicate (512 - 8 * (utf8Bytes ['a']).length) 0)))
        ∧ bits_to_text bits = some ['a'] :=
  ⟨by decide, (text_to_bits_roundtrip ['a']).1 (by decide)⟩

theorem fallback_pos_le (n d : ℕ) : (if n ≤ 2 then n - 1 else 1 + d % (n - 1)) ≤ n := by
  by_cases h : n ≤ 2
  · rw [if_pos h]
    omega
  · rw [if_neg h]
    have := Nat.mod_lt d (show 0 < n - 1 by omega)
    omega

/-- C6: for every JSON document whose root is an object with distinct
top-level keys, every watermark text and mode, and every outcome of the
internal random choices (any shuffled base-index order covering all key
indices, any shuffled suffix orders covering the six suffixes — so in
particular every Fisher–Yates outcome — any fallback-pool start and any
fallback position draw), a successful obfuscated injection returns exactly
the watermark-value-cleaned entry list with one entry inserted at an
in-range position under a key that collides with no surviving key: hence
no duplicate top-level keys, key count = original − #watermark-shaped
values + 1, and the surviving original keys keep their relative order. -/
theorem embed_obfuscated_key_discipline
    (O : AesOracle) (nonce : List ℕ) (entries : List (List Char × JValue))
    (text mode : List Char) (aesKey : Option (List Char)) (baseOrder : List ℕ)
    (sufOrders : ℕ → List (List Char)) (poolStart posDraw : ℕ) (out : JValue)
    (hnodup : (entries.map Prod.fst).Nodup)
    (hbo : ∀ i ∈ List.range (entries.filter (fun e => !watermarkShapedValue e.2)).length,
        i ∈ baseOrder)
    (hso : ∀ i, ∀ suf ∈ SUFFIXES, suf ∈ sufOrders i)
    (hok : embed_obfuscated O nonce (.obj entries) text mode aesKey baseOrder sufOrders
        poolStart posDraw = .ok out) :
    ∃ (res : List (List Char × JValue)) (dk enc : List Char) (pos : ℕ),
      out = .obj res ∧
      res = (entries.filter (fun e => !watermarkShapedValue e.2)).insertIdx pos
        (dk, .str enc) ∧
      pos ≤ (entries.filter (fun e => !watermarkShapedValue e.2)).length ∧
      dk ∉ (entries.filter (fun e => !watermarkShapedValue e.2)).map Prod.fst ∧
      (res.map Prod.fst).Nodup ∧
      res.length + (entries.filter (fun e => watermarkShapedValue e.2)).length
        = entries.length + 1 := by
  unfold embed_obfuscated at hok
  cases henc : encode_watermark O nonce text mode aesKey with
  | error e =>
    rw [henc] at hok
    simp at hok
  | ok enc =>
    rw [henc] at hok
    set clean := entries.filter (fun e => !watermarkShapedValue e.2) with hcleandef
    set dkb := make_disguised_key (clean.map Prod.fst) baseOrder sufOrders poolStart
      with hdkbdef
    set pos := (match dkb.2 with
      | some bk =>
        match (clean.map Prod.fst).indexOf? bk with
        | some p => p + 1
        | none =>
          if clean.length ≤ 2 then clean.length - 1
          else 1 + posDraw % (clean.length - 1)
      | none =>
        if clean.length ≤ 2 then clean.length - 1
        else 1 + posDraw % (clean.length - 1)) with hposdef
    have hout : JValue.obj (buildNewMap dkb.1 (.str enc) pos clean) = out := by
      have h2 : (Except.ok (JValue.obj (buildNewMap dkb.1 (.str enc) pos clean)) :
          Except BMError JValue) = Except.ok out := hok
      exact Except.ok.inj h2
    have hndc : (clean.map Prod.fst).Nodup := by
      rw [hcleandef]
      exact hnodup.sublist (List.Sublist.map Prod.fst (List.filter_sublist entries))
    have hcov : ∀ i ∈ List.range (clean.map Prod.fst).length, i ∈ baseOrder := by
      intro i hi
      rw [List.length_map] at hi
      exact hbo i hi
    have hdkfresh : dkb.1 ∉ clean.map Prod.fst := by
      have := make_disguised_key_fresh (clean.map Prod.fst) baseOrder sufOrders
        poolStart hcov hso
      rwa [← hdkbdef] at this
    have hposle : pos ≤ clean.length := by
      rw [hposdef]
      split
      · split
        · rename_i p hio
          have hp := indexOf?_lt_length hio
          rw [List.length_map] at hp
          exact hp
        · exact fallback_pos_le clean.length posDraw
      · exact fallback_pos_le clean.length posDraw
    have hbuild : buildNewMap dkb.1 (.str enc) pos clean
        = clean.insertIdx pos (dkb.1, .str enc) :=
      buildNewMap_eq dkb.1 (.str enc) pos clean hndc hdkfresh hposle
    have hresmap : (clean.insertIdx pos (dkb.1, JValue.str enc)).map Prod.fst
        = (clean.map Prod.fst).insertIdx pos dkb.1 :=
      map_fst_insertIdx (dkb.1, .str enc) clean pos hposle
    have hperm : ((clean.map Prod.fst).insertIdx pos dkb.1).Perm
        (dkb.1 :: clean.map Prod.fst) :=
      List.perm_insertIdx dkb.1 (clean.map Prod.fst)
        (by rw [List.length_map]; exact hposle)
    have hresnd : ((clean.insertIdx pos (dkb.1, JValue.str enc)).map Prod.fst).Nodup := by
      rw [hresmap, hperm.nodup_iff]
      exact List.nodup_cons.mpr ⟨hdkfresh, hndc⟩
    have hreslen : (clean.insertIdx pos (dkb.1, JValue.str enc)).length
        = clean.length + 1 :=
      List.length_insertIdx pos clean hposle
    have hsplit : entries.length
        = (entries.filter (fun e => watermarkShapedValue e.2)).length + clean.length := by
      rw [hcleandef]
      simpa using
        List.length_eq_length_filter_add (fun e : List Char × JValue =>
          watermarkShapedValue e.2)
    refine ⟨clean.insertIdx pos (dkb.1, .str enc), dkb.1, enc, pos, ?_, rfl, hposle,
      hdkfresh, hresnd, ?_⟩
    · rw [← hout]
      exact congrArg JValue.obj hbuild
    · rw [hreslen]
      omega

theorem embed_obfuscated_key_discipline_witness :
    ∃ (res : List (List Char × JValue)) (dk enc : List Char) (pos : ℕ),
      JValue.obj [(['a'], JValue.num 1), ("aHash".data, JValue.str "txt:hi".data)]
        = .obj res ∧
      res = (([(['a'], JValue.num 1), (['k'], JValue.str "txt:old".data)] :
          List (List Char × JValue)).filter
        (fun e => !watermarkShapedValue e.2)).insertIdx pos (dk, .str enc) ∧
      pos ≤ (([(['a'], JValue.num 1), (['k'], JValue.str "txt:old".data)] :
          List (List Char × JValue)).filter
        (fun e => !watermarkShapedValue e.2)).length ∧
      dk ∉ (([(['a'], JValue.num 1), (['k'], JValue.str "txt:old".data)] :
          List (List Char × JValue)).filter
        (fun e => !watermarkShapedValue e.2)).map Prod.fst ∧
      (res.map Prod.fst).Nodup ∧
      res.length + (([(['a'], JValue.num 1), (['k'], JValue.str "txt:old".data)] :
          List (List Char × JValue)).filter
        (fun e => watermarkShapedValue e.2)).length
        = ([(['a'], JValue.num 1), (['k'], JValue.str "txt:old".data)] :
            List (List Char × JValue)).length + 1 :=
  embed_obfuscated_key_discipline trivAes []
    [(['a'], .num 1), (['k'], .str "txt:old".data)]
    "hi".data "plaintext".data none [0] (fun _ => SUFFIXES) 0 0
    (JValue.obj [(['a'], .num 1), ("aHash".data, .str "txt:hi".data)])
    (by decide) (by decide) (fun i suf hs => hs) rfl

end BlindMark
